import Mathlib

/-!
Verification of the bofire design-of-experiments core: shallow embedding of
the constraint transformer, optimality metrics, NChooseK bound handling,
feature validation/encoding and the polytope sampler, together with proofs
about the embedded operations.

Scalars are embedded as rationals, strings (variable keys, category names,
formula text) as lists of characters.
-/

namespace Bofire

/-- Strings from the Python sources (variable keys, category labels, formula
text) are embedded as lists of characters so that concatenation and
splitting can be reasoned about directly. -/
abbrev Str := List Char

/-- Embedding of a continuous input feature (data model ContinuousInput):
a key plus lower/upper bounds.  The pydantic validator enforces lb <= ub;
claims that need it take it as a hypothesis. -/
structure ContInput where
  key : Str
  lb : ℚ
  ub : ℚ
deriving DecidableEq

/-- Data of a LinearEqualityConstraint / LinearInequalityConstraint:
parallel feature and coefficient lists and a right hand side. -/
structure LinearConstraintData where
  features : List Str
  coefficients : List ℚ
  rhs : ℚ
deriving DecidableEq

/-- Data of a NonlinearEqualityConstraint / NonlinearInequalityConstraint.
The sympy expression strings are kept as opaque text; their evaluation is
a parameter where needed. -/
structure NonlinearConstraintData where
  expression : Str
  features : Option (List Str)
  jacobianExpression : Option Str
deriving DecidableEq

/-- Data of an NChooseKConstraint. -/
structure NChooseKData where
  features : List Str
  minCount : ℕ
  maxCount : ℕ
  noneAlsoValid : Bool
deriving DecidableEq

/-- The closed union of domain constraint kinds handled by
constraints_as_scipy_constraints. -/
inductive Constraint where
  | linEq (c : LinearConstraintData)
  | linIneq (c : LinearConstraintData)
  | nonlinEq (c : NonlinearConstraintData)
  | nonlinIneq (c : NonlinearConstraintData)
  | nchoosek (c : NChooseKData)
deriving DecidableEq

/-- Embedding of a Domain as used by the DoE utilities: the ordered list of
(continuous) input features and the ordered list of constraints. -/
structure Domain where
  inputs : List ContInput
  constraints : List Constraint
deriving DecidableEq

/-- domain.inputs.get_keys() -/
def Domain.keys (d : Domain) : List Str := d.inputs.map (·.key)

/-- domain.inputs.get_by_key(name): first feature with the given key
(keys are unique in a validated domain). -/
def Domain.getByKey (d : Domain) (name : Str) : Option ContInput :=
  d.inputs.find? (fun p => p.key = name)

/-! ### C9: ConstraintWrapper.__call__ -/

/-- x.reshape(len(x) // D, D): cut a flattened design vector into rows of
length D (as many full rows as fit, mirroring numpy reshape on an array
whose length is a multiple of D). -/
def reshapeRows (D : ℕ) (x : List ℚ) : List (List ℚ) :=
  (List.range (x.length / D)).map (fun i => ((x.drop (i * D)).take D))

/-- ConstraintWrapper.__call__: reshape the flattened vector into a
DataFrame of experiments, evaluate the wrapped constraint row-wise
(the data-model constraint evaluator is the parameter f), then apply
violation[np.abs(violation) < 0] = 0. -/
def wrapperCall (D : ℕ) (f : List ℚ → ℚ) (x : List ℚ) : List ℚ :=
  let violation := (reshapeRows D x).map f
  violation.map (fun v => if |v| < 0 then 0 else v)

/-! ### C5: DiscreteInput construction -/

/-- Embedding of a DiscreteInput after validation. -/
structure DiscreteInput where
  key : Str
  values : List ℚ
deriving DecidableEq

/-- DiscreteInput.validate_values_unique: raise when the values are not
pairwise distinct, otherwise return them sorted. -/
def validateValuesUnique (values : List ℚ) : Except String (List ℚ) :=
  if values.length ≠ values.dedup.length then
    .error "Discrete values must be unique"
  else
    .ok (values.mergeSort (fun a b => decide (a ≤ b)))

/-- Construction of a DiscreteInput: the conlist min_items=1 check followed
by validate_values_unique. -/
def mkDiscreteInput (key : Str) (values : List ℚ) : Except String DiscreteInput :=
  if values.length < 1 then
    .error "ensure this value has at least 1 items"
  else
    match validateValuesUnique values with
    | .error e => .error e
    | .ok vs => .ok { key := key, values := vs }

/-! ### C2: g_optimality -/

/-- A numpy 2-D array as a list of rows. -/
abbrev Mat := List (List ℚ)

/-- Number of rows (len(X)). -/
def matRows (A : Mat) : ℕ := A.length

/-- Number of columns (length of the first row; matrices are
rectangular). -/
def matCols (A : Mat) : ℕ := ((A.head?).map List.length).getD 0

/-- Row i of a matrix. -/
def rowGet (A : Mat) (i : ℕ) : List ℚ := (A.get? i).getD []

/-- Entry (i, j) of a matrix. -/
def entry (A : Mat) (i j : ℕ) : ℚ := ((rowGet A i).get? j).getD 0

/-- X.T -/
def transposeM (A : Mat) : Mat :=
  (List.range (matCols A)).map (fun j => A.map (fun row => (row.get? j).getD 0))

/-- Dot product of two equally long vectors. -/
def dotL (u v : List ℚ) : ℚ := ((u.zip v).map (fun pr => pr.1 * pr.2)).sum

/-- Matrix product with numpy's shape check. -/
def matmulM (A B : Mat) : Except String Mat :=
  if matCols A ≠ matRows B then
    .error "matmul: dimension mismatch"
  else
    .ok (A.map (fun row => (transposeM B).map (fun colv => dotL row colv)))

/-- np.eye(n). -/
def eyeM (n : ℕ) : Mat :=
  (List.range n).map (fun i =>
    (List.range n).map (fun j => if i = j then (1 : ℚ) else 0))

/-- Scalar multiple of a matrix. -/
def smulM (c : ℚ) (A : Mat) : Mat := A.map (fun row => row.map (fun q => c * q))

/-- numpy element-wise addition of two 2-D arrays with broadcasting: a
dimension of size 1 is repeated; mismatching dimensions that are both
different from 1 raise. -/
def broadcastAddM (A B : Mat) : Except String Mat :=
  if (matRows A = matRows B ∨ matRows A = 1 ∨ matRows B = 1)
      ∧ (matCols A = matCols B ∨ matCols A = 1 ∨ matCols B = 1) then
    .ok ((List.range (max (matRows A) (matRows B))).map (fun i =>
      (List.range (max (matCols A) (matCols B))).map (fun j =>
        entry A (if matRows A = 1 then 0 else i) (if matCols A = 1 then 0 else j)
        + entry B (if matRows B = 1 then 0 else i)
            (if matCols B = 1 then 0 else j))))
  else
    .error "operands could not be broadcast together"

/-- Plain element-wise addition of two same-shape matrices. -/
def addM (A B : Mat) : Except String Mat :=
  if matRows A ≠ matRows B ∨ matCols A ≠ matCols B then
    .error "add: dimension mismatch"
  else
    .ok ((A.zip B).map (fun pr =>
      (pr.1.zip pr.2).map (fun qr => qr.1 + qr.2)))

/-- Swap two rows of a matrix. -/
def swapRows (A : Mat) (i j : ℕ) : Mat :=
  (A.set i (rowGet A j)).set j (rowGet A i)

/-- One Gauss-Jordan elimination step on column k of an augmented matrix:
find a pivot row at or below k (a singular matrix raises, as
np.linalg.inv does), swap it up, scale it to a unit pivot, and clear
column k in every other row. -/
def elimStep (A : Mat) (k : ℕ) : Except String Mat :=
  match ((List.range A.length).drop k).find?
      (fun i => decide (entry A i k ≠ 0)) with
  | none => .error "Singular matrix"
  | some r =>
    let B := swapRows A k r
    let piv := entry B k k
    let scaled := B.set k ((rowGet B k).map (fun q => q / piv))
    .ok ((List.range scaled.length).map (fun i =>
      if i = k then rowGet scaled i
      else
        ((rowGet scaled i).zip (rowGet scaled k)).map
          (fun pr => pr.1 - entry scaled i k * pr.2)))

/-- np.linalg.inv via Gauss-Jordan elimination on the matrix augmented
with the identity; raises on non-square or singular input. -/
def invM (A : Mat) : Except String Mat :=
  if matCols A ≠ A.length then
    .error "inv: not square"
  else
    match (List.range A.length).foldl
      (fun (acc : Except String Mat) (k : ℕ) =>
        match acc with
        | .error e => .error e
        | .ok M => elimStep M k)
      (Except.ok ((List.range A.length).map (fun i =>
        rowGet A i ++ (List.range A.length).map
          (fun j => if i = j then (1 : ℚ) else 0)))) with
    | .error e => .error e
    | .ok M => .ok (M.map (fun row => row.drop A.length))

/-- np.diag of a square matrix. -/
def diagM (A : Mat) : List ℚ := (List.range A.length).map (fun i => entry A i i)

/-- np.max of a vector (raises on an empty array). -/
def maxL : List ℚ → Except String ℚ
  | [] => .error "max of empty array"
  | x :: t => .ok (t.foldl (fun a b => if a < b then b else a) x)

/-- g_optimality as implemented: the ridge term is delta * np.eye(len(X))
where len(X) is the number of ROWS (n_experiments), added to X.T @ X
(which is n_terms x n_terms) under numpy broadcasting. -/
def g_optimality (X : Mat) (delta : ℚ) : Except String ℚ :=
  match matmulM (transposeM X) X with
  | .error e => .error e
  | .ok XtX =>
    match broadcastAddM XtX (smulM delta (eyeM X.length)) with
    | .error e => .error e
    | .ok S =>
      match invM S with
      | .error e => .error e
      | .ok Sinv =>
        match matmulM X Sinv with
        | .error e => .error e
        | .ok M1 =>
          match matmulM M1 (transposeM X) with
          | .error e => .error e
          | .ok H => maxL (diagM H)

/-- Modelled from the spec: G-optimality as the claim states it, with the
identity of the ridge term having the dimension of X.T @ X (n_terms x
n_terms), so that max diag(X (X.T X + delta I)^-1 X.T) is well defined
for every model matrix. -/
def g_optimality_spec (X : Mat) (delta : ℚ) : Except String ℚ :=
  match matmulM (transposeM X) X with
  | .error e => .error e
  | .ok XtX =>
    match addM XtX (smulM delta (eyeM (matCols X))) with
    | .error e => .error e
    | .ok S =>
      match invM S with
      | .error e => .error e
      | .ok Sinv =>
        match matmulM X Sinv with
        | .error e => .error e
        | .ok M1 =>
          match matmulM M1 (transposeM X) with
          | .error e => .error e
          | .ok H => maxL (diagM H)

/-! ### C7: polytope sampler warnings -/

/-- get_linear_constraints(domain, LinearEqualityConstraint,
unit_scaled=False) from torch_tools: for each linear equality constraint,
fixed features (bounds collapsed to a point) move their contribution into
the right hand side while free features keep their index (within the
input key order) and coefficient; the third component is -(rhs_acc +
c.rhs).  (A feature key missing from the domain raises in Python; the
theorems below assume resolvable features.) -/
def getLinearEqTriples (dom : Domain) : List (List ℕ × List ℚ × ℚ) :=
  dom.constraints.filterMap (fun c =>
    match c with
    | .linEq cd =>
      let st := (cd.features.zip cd.coefficients).foldl
        (fun (acc : List ℕ × List ℚ × ℚ) pr =>
          match dom.getByKey pr.1 with
          | some p =>
            if p.lb = p.ub then (acc.1, acc.2.1, acc.2.2 - p.lb * pr.2)
            else (acc.1 ++ [dom.keys.indexOf pr.1], acc.2.1 ++ [pr.2], acc.2.2)
          | none => acc)
        ([], [], 0)
      some (st.1, st.2.1, -(st.2.2 + cd.rhs))
    | _ => none)

/-- The keys treated as fixed by PolytopeSampler._sample_from_polytope:
continuous inputs whose bounds collapse to a point, plus pseudo-fixed
features, i.e. linear equality constraints reduced to a single free
coefficient. -/
def fixedFeatureKeys (dom : Domain) : List Str :=
  (dom.inputs.filter (fun p => decide (p.lb = p.ub))).map (·.key)
    ++ (getLinearEqTriples dom).filterMap (fun tr =>
        if tr.1.length = 1 then dom.keys.get? ((tr.1.head?).getD 0) else none)

/-- The observable outcome of _sample_from_polytope for the warning
claims: the warnings emitted and the number of rows of the returned
table. -/
structure SampleOutcome where
  warnings : List String
  rows : ℕ
deriving DecidableEq

/-- PolytopeSampler._sample_from_polytope: without constraints fall back
to plain input sampling (no warning); with every continuous input fixed
or pseudo-fixed there is nothing to sample and a degenerate-sample
warning is emitted with a NaN table of n rows; otherwise the externally
generated hit-and-run candidates (parameter, botorch
sample_q_batches_from_polytope) fill the table and a non-uniqueness
warning is emitted when n > 1 and the candidate rows are not pairwise
distinct.  A table with n rows is returned in every case. -/
def sampleFromPolytope (dom : Domain) (n : ℕ) (candidates : List (List ℚ)) :
    SampleOutcome :=
  if dom.constraints = [] then ⟨[], n⟩
  else if ((dom.inputs.filter (fun p =>
      decide (p.key ∉ fixedFeatureKeys dom))).map (fun p => p.lb)) = [] then
    ⟨["Nothing to sample, all is fixed. Just the fixed set is returned."], n⟩
  else if candidates.dedup.length ≠ n ∧ 1 < n then
    ⟨["Generated candidates are not unique!"], n⟩
  else
    ⟨[], n⟩

/-! ### C8: _ask with NChooseK constraints never mutates the original
domain.  Python objects are modelled with an explicit heap: feature
objects live in a store addressed by index, a domain holds addresses, and
copy.deepcopy allocates fresh addresses, so in-place bound mutation on a
copy is a store update at a fresh address. -/

/-- The store of ContinuousInput feature objects; an address is an index
into the store. -/
abbrev Heap := List ContInput

/-- A Domain object whose input features are references into the heap. -/
structure RefDomain where
  inputAddrs : List ℕ
  constraints : List Constraint

/-- Dereference a feature address. -/
def heapGet (h : Heap) (a : ℕ) : ContInput := h.getD a ⟨[], 0, 0⟩

/-- copy.deepcopy(self.domain): fresh feature objects holding the same
values are appended to the heap, and the copied domain references the
fresh addresses. -/
def deepcopyDomain (h : Heap) (d : RefDomain) : Heap × RefDomain :=
  (h ++ d.inputAddrs.map (heapGet h),
   { d with inputAddrs := (List.range d.inputAddrs.length).map (· + h.length) })

/-- domain.inputs.get_by_key(key) as an address lookup. -/
def getByKeyAddr (h : Heap) (d : RefDomain) (key : Str) : Option ℕ :=
  d.inputAddrs.find? (fun a => (heapGet h a).key = key)

/-- feat.bounds = (0, 0): mutate the feature object in place on the heap
(a missing key raises in Python before any mutation; modelled as no heap
change). -/
def fixFeatureHeap (h : Heap) (d : RefDomain) (key : Str) : Heap :=
  match getByKeyAddr h d key with
  | some a => h.set a { heapGet h a with lb := 0, ub := 0 }
  | none => h

/-- One iteration of the loop of PolytopeSampler._ask over a sampled
combination u: deepcopy the sampler's domain, drop the NChooseK
constraints on the copy (an attribute assignment on the copy object), pin
every unused feature of the copy to (0, 0), then hand the copy to a
sub-sampler (which, with the NChooseK constraints removed, performs no
further mutation). -/
def processCombination (h : Heap) (selfDomain : RefDomain) (u : List Str) :
    Heap :=
  let hd := deepcopyDomain h selfDomain
  let dcopy : RefDomain :=
    { hd.2 with constraints := hd.2.constraints.filter (fun c =>
        match c with
        | .nchoosek _ => false
        | _ => true) }
  u.foldl (fun hh key => fixFeatureHeap hh dcopy key) hd.1

/-- PolytopeSampler._ask over NChooseK combinations: loop over the
sampled unused-feature combinations (produced by
domain.get_nchoosek_combinations and the rng choice, both parameters
here) threading the heap; self.domain is only read, never assigned. -/
def polytopeAskNChooseK (h : Heap) (selfDomain : RefDomain)
    (combinations : List (List Str)) : Heap × RefDomain :=
  (combinations.foldl (fun hh u => processCombination hh selfDomain u) h,
   selfDomain)

/-! ### C10: categorical one-hot round trip -/

/-- Embedding of a validated CategoricalInput (its categories are unique
by validate_categories_unique). -/
structure CatInput where
  key : Str
  categories : List Str
deriving DecidableEq

/-- CategoricalInput.to_onehot_encoding: one float column per category
named key_CAT_SEP_category (the separator _CAT_SEP is the underscore),
holding 1.0 where the series equals the category and 0.0 elsewhere. -/
def toOnehotEncoding (feat : CatInput) (s : List Str) : List (Str × List ℚ) :=
  feat.categories.map (fun c =>
    (feat.key ++ '_' :: c, s.map (fun v => if v = c then (1 : ℚ) else 0)))

/-- pandas Series.str.split on the underscore separator: split at every
occurrence, keeping empty pieces. -/
def splitOnSep : Str → List Str
  | [] => [[]]
  | ch :: rest =>
    let r := splitOnSep rest
    if ch = '_' then [] :: r
    else
      match r with
      | h :: t => (ch :: h) :: t
      | [] => [[ch]]

/-- One step of pandas idxmax over a row: keep the current best column
unless a strictly larger value appears (ties keep the first maximum). -/
def bestStep (best pr : Str × ℚ) : Str × ℚ :=
  if best.2 < pr.2 then pr else best

/-- pandas DataFrame.idxmax(1) on one row given as (column name, value)
pairs: the name of the first column attaining the maximum. -/
def idxmaxRow : List (Str × ℚ) → Str
  | [] => []
  | pr :: t => (t.foldl bestStep pr).1

/-- CategoricalInput.from_onehot_encoding: check the one-hot columns are
present (extra columns are allowed), then per row take the column name
with the maximal value, split it on the separator and keep part 1; the
result is named by the feature key.  The data frame is given column-wise;
its row count is the length of its first column.  On a zero-row frame
the idxmax series is empty, its split with expand=True is a DataFrame
with no columns, and the [1] selection raises a KeyError; with at least
one row every selected column name is of the form key_category and so
contains the separator, hence part 1 of its split exists. -/
def fromOnehotEncoding (feat : CatInput) (values : List (Str × List ℚ)) :
    Except String (Str × List Str) :=
  let catCols := feat.categories.map (fun c => feat.key ++ '_' :: c)
  if catCols.any (fun c => ((values.find? (fun pr => pr.1 = c)).isNone)) then
    .error "Column names do not match categorical levels."
  else
    let cols := catCols.map (fun c =>
      (c, ((values.find? (fun pr => pr.1 = c)).map (·.2)).getD []))
    let nRows := ((values.head?).map (fun pr => pr.2.length)).getD 0
    if nRows = 0 then
      .error "KeyError: 1"
    else
      .ok (feat.key, (List.range nRows).map (fun r =>
        ((splitOnSep (idxmaxRow (cols.map (fun pr =>
          (pr.1, (pr.2.get? r).getD 0))))).get? 1).getD []))

/-! ### C6: get_formula_from_string -/

/-- Result of parsing a formula string with the external formulaic library
(including the rhs extraction for rhs_only); kept opaque apart from the
source text. -/
structure Formula where
  raw : Str
deriving DecidableEq

/-- linear_formula: the assert on the domain followed by the join of
"key + " over the inputs. -/
def linearFormulaStr (dom : Option Domain) : Except String Str :=
  match dom with
  | none => .error "If the model is described by a keyword a domain must be provided"
  | some d => .ok ((d.inputs.map (fun p => p.key ++ " + ".toList)).flatten)

/-- The quadratic term text for one input key. -/
def quadTermStr (key : Str) : Str :=
  "\x7b".toList ++ key ++ "**2\x7d + ".toList

/-- linear_and_quadratic_formula. -/
def linearAndQuadraticFormulaStr (dom : Option Domain) : Except String Str :=
  match dom with
  | none => .error "If the model is described by a keyword a problem must be provided."
  | some d =>
    .ok ((d.inputs.map (fun p => p.key ++ " + ".toList)).flatten
      ++ (d.inputs.map (fun p => quadTermStr p.key)).flatten)

/-- The interaction terms text: for i in range(len), for j in range(i),
"keys[j]:keys[i] + ". -/
def interactionTermsStr (d : Domain) : Str :=
  ((List.range d.inputs.length).map (fun i =>
    ((List.range i).map (fun j =>
      d.keys.getD j [] ++ ":".toList ++ d.keys.getD i [] ++ " + ".toList)).flatten)).flatten

/-- linear_and_interactions_formula. -/
def linearAndInteractionsFormulaStr (dom : Option Domain) : Except String Str :=
  match dom with
  | none => .error "If the model is described by a keyword a problem must be provided."
  | some d =>
    .ok ((d.inputs.map (fun p => p.key ++ " + ".toList)).flatten ++ interactionTermsStr d)

/-- fully_quadratic_formula. -/
def fullyQuadraticFormulaStr (dom : Option Domain) : Except String Str :=
  match dom with
  | none => .error "If the model is described by a keyword a problem must be provided."
  | some d =>
    .ok ((d.inputs.map (fun p => p.key ++ " + ".toList)).flatten ++ interactionTermsStr d
      ++ (d.inputs.map (fun p => quadTermStr p.key)).flatten)

/-- get_formula_from_string for a string model_type: dispatch on the four
keywords, otherwise append three spaces; then strip the final three
characters and hand the text to the formulaic parser (the external library
is the parameter parse, covering Formula construction and rhs
extraction); a failed parse raises. -/
def getFormulaFromString (parse : Str → Option Formula) (modelType : Str)
    (dom : Option Domain) : Except String Formula :=
  let fstr : Except String Str :=
    if modelType = "linear".toList then linearFormulaStr dom
    else if modelType = "linear-and-quadratic".toList then linearAndQuadraticFormulaStr dom
    else if modelType = "linear-and-interactions".toList then linearAndInteractionsFormulaStr dom
    else if modelType = "fully-quadratic".toList then fullyQuadraticFormulaStr dom
    else .ok (modelType ++ "   ".toList)
  match fstr with
  | .error e => .error e
  | .ok s =>
    match parse (s.take (s.length - 3)) with
    | some f => .ok f
    | none => .error "formulaic could not parse the formula string"

/-! ### C3/C4: NChooseK constraints as bounds -/

/-- A Python for-loop whose body may raise: run the body on each element in
order, stopping at the first raised exception. -/
def exceptForM {α : Type _} (xs : List α) (f : α → Except String Unit) :
    Except String Unit :=
  match xs with
  | [] => .ok ()
  | x :: t =>
    match f x with
    | .error e => .error e
    | .ok () => exceptForM t f

/-- The NChooseK constraints of a domain, in order. -/
def nchoosekList (dom : Domain) : List NChooseKData :=
  dom.constraints.filterMap (fun c =>
    match c with
    | .nchoosek cd => some cd
    | _ => none)

/-- Body of the first loop of check_nchoosek_constraints_as_bounds for one
feature name: look the feature up (a missing key raises) and raise when
its bounds exclude 0 (bounds[0] > 0 or bounds[1] < 0). -/
def checkFeatureZeroInBounds (dom : Domain) (name : Str) : Except String Unit :=
  match dom.getByKey name with
  | none => .error "KeyError"
  | some p =>
    if p.lb > 0 ∨ p.ub < 0 then
      .error "Constraint cannot be formulated as bounds. 0 must be inside the domain of the affected decision variables."
    else
      .ok ()

/-- First loop of check_nchoosek_constraints_as_bounds: every feature
referenced by an NChooseK constraint (np.unique de-duplicates the feature
list) must have 0 within its bounds. -/
def checkZeroLoop (dom : Domain) (ncs : List NChooseKData) : Except String Unit :=
  exceptForM ncs (fun cd =>
    exceptForM cd.features.dedup (checkFeatureZeroInBounds dom))

/-- Second loop of check_nchoosek_constraints_as_bounds: the feature name
lists of any two non-equal NChooseK constraints must be disjoint. -/
def checkPairwiseDisjoint (ncs : List NChooseKData) : Except String Unit :=
  exceptForM ncs (fun cd =>
    exceptForM ncs (fun cd' =>
      if cd = cd' then .ok ()
      else
        exceptForM cd.features (fun name =>
          if name ∈ cd'.features then
            .error "Domain cannot be used for formulation as bounds. names attribute of NChooseK constraints must be pairwise disjoint."
          else
            .ok ())))

/-- check_nchoosek_constraints_as_bounds: nothing to do without
constraints or without NChooseK constraints; otherwise run the
zero-in-bounds loop and then the pairwise-disjointness loop. -/
def checkNchoosekConstraintsAsBounds (dom : Domain) : Except String Unit :=
  if dom.constraints = [] then .ok ()
  else if nchoosekList dom = [] then .ok ()
  else
    match checkZeroLoop dom (nchoosekList dom) with
    | .error e => .error e
    | .ok () => checkPairwiseDisjoint (nchoosekList dom)

/-- A numpy fancy-index assignment a[ps] = v: set every listed position of
the list to the value v (positions beyond the end are a no-op, but all
positions used below are in range). -/
def setAll {α : Type _} (ps : List ℕ) (v : α) (l : List α) : List α :=
  ps.foldl (fun acc p => acc.set p v) l

/-- The indices of the inputs whose key occurs in the NChooseK constraint:
[i for i, p in enumerate(domain.inputs.get_keys()) if p in
constraint.features]. -/
def indOf (dom : Domain) (cd : NChooseKData) : List ℕ :=
  ((dom.keys.enum).filter (fun pr => decide (pr.2 ∈ cd.features))).map (·.1)

/-- All combinations of the constrained input indices of length
n_inactive = len(features) - max_count (itertools.combinations up to
order, which the subsequent shuffle absorbs). -/
def combosOf (dom : Domain) (cd : NChooseKData) : List (List ℕ) :=
  List.sublistsLen (cd.features.length - cd.maxCount) (indOf dom cd)

/-- ind[i % len(ind)]: the combination assigned to experiment i from the
shuffled combination list. -/
def chosenCombo (shuf : NChooseKData → List (List ℕ)) (cd : NChooseKData)
    (i : ℕ) : List ℕ :=
  ((shuf cd).get? (i % (shuf cd).length)).getD []

/-- The flattened-bounds positions zeroed by one NChooseK constraint:
for each experiment i the members of its chosen combination shifted by
i * D. -/
def positionsOf (D n : ℕ) (ind : List (List ℕ)) : List ℕ :=
  (List.range n).flatMap (fun i =>
    ((ind.get? (i % ind.length)).getD []).map (· + i * D))

/-- The per-constraint experiment loop of nchoosek_constraints_as_bounds:
for i in range(n_experiments), set the bounds of the combination
ind[i % len(ind)] (shifted into experiment i's block) to [0, 0].  An
empty combination list makes i % len(ind) a division by zero. -/
def applyNchoosekBounds (D n : ℕ) (ind : List (List ℕ))
    (bnds : List (ℚ × ℚ)) : Except String (List (ℚ × ℚ)) :=
  if ind = [] then
    .error "ZeroDivisionError: integer division or modulo by zero"
  else
    .ok ((List.range n).foldl (fun b i =>
      setAll (((ind.get? (i % ind.length)).getD []).map (· + i * D)) (0, 0) b)
      bnds)

/-- The constraint loop of nchoosek_constraints_as_bounds: only NChooseK
constraints update the bounds array; the shuffled combination list of a
constraint cd is shuf cd (np.random.shuffle is modelled by the parameter,
a permutation of combosOf). -/
def nchoosekBoundsFold (dom : Domain) (n : ℕ)
    (shuf : NChooseKData → List (List ℕ)) :
    List Constraint → List (ℚ × ℚ) → Except String (List (ℚ × ℚ))
  | [], bnds => .ok bnds
  | .nchoosek cd :: t, bnds =>
    (match applyNchoosekBounds dom.inputs.length n (shuf cd) bnds with
     | .error e => .error e
     | .ok b => nchoosekBoundsFold dom n shuf t b)
  | .linEq _ :: t, bnds => nchoosekBoundsFold dom n shuf t bnds
  | .linIneq _ :: t, bnds => nchoosekBoundsFold dom n shuf t bnds
  | .nonlinEq _ :: t, bnds => nchoosekBoundsFold dom n shuf t bnds
  | .nonlinIneq _ :: t, bnds => nchoosekBoundsFold dom n shuf t bnds

/-- nchoosek_constraints_as_bounds: run the precondition check, build the
per-experiment bounds array [p.bounds for continuous p] * n_experiments,
then apply every NChooseK constraint's round-robin zeroing loop. -/
def nchoosekConstraintsAsBounds (dom : Domain) (n : ℕ)
    (shuf : NChooseKData → List (List ℕ)) : Except String (List (ℚ × ℚ)) :=
  match checkNchoosekConstraintsAsBounds dom with
  | .error e => .error e
  | .ok () =>
    nchoosekBoundsFold dom n shuf dom.constraints
      ((List.replicate n (dom.inputs.map (fun p => (p.lb, p.ub)))).flatten)

/-- All positions zeroed over a constraint list. -/
def allPositions (dom : Domain) (n : ℕ)
    (shuf : NChooseKData → List (List ℕ)) : List Constraint → List ℕ
  | [] => []
  | .nchoosek cd :: t =>
    positionsOf dom.inputs.length n (shuf cd) ++ allPositions dom n shuf t
  | .linEq _ :: t => allPositions dom n shuf t
  | .linIneq _ :: t => allPositions dom n shuf t
  | .nonlinEq _ :: t => allPositions dom n shuf t
  | .nonlinIneq _ :: t => allPositions dom n shuf t

/-! ### C1: constraints_as_scipy_constraints -/

/-- A scipy bound entry: either -inf or a finite rational. -/
inductive Bnd where
  | neginf
  | val (q : ℚ)
deriving DecidableEq

/-- Lookup in the Python dict comprehension over range(len(features)):
later duplicate keys override earlier ones, so the last matching pair
wins.  In a validated linear constraint features and vals have the same
length. -/
def lhsLookup (features : List Str) (vals : List ℚ) (name : Str) : Option ℚ :=
  (((features.zip vals).reverse).find? (fun pr => pr.1 = name)).map (·.2)

/-- The single per-experiment coefficient row of a linear constraint: for
input position i, the normalized coefficient of the input's key if that
key occurs in the constraint, else 0. -/
def constraintRow (dom : Domain) (cd : LinearConstraintData) (nrmv : ℚ) :
    ℕ → ℚ :=
  fun i =>
    match dom.keys.get? i with
    | some name =>
      match lhsLookup cd.features (cd.coefficients.map (· / nrmv)) name with
      | some v => v
      | none => 0
    | none => 0

/-- The slice assignment A[i, i*D:(i+1)*D] = row on a matrix represented
as a function of (row index, column index). -/
def setBlock (D : ℕ) (row : ℕ → ℚ) (A : ℕ → ℕ → ℚ) (i : ℕ) : ℕ → ℕ → ℚ :=
  fun r col =>
    if r = i ∧ i * D ≤ col ∧ col < (i + 1) * D then row (col - i * D) else A r col

/-- A = np.zeros((n, D*n)) followed by the loop of slice assignments
A[i, i*D:(i+1)*D] = row for i in range(n). -/
def buildBlockMatrix (n D : ℕ) (row : ℕ → ℚ) : ℕ → ℕ → ℚ :=
  (List.range n).foldl (setBlock D row) (fun _ _ => 0)

/-- A scipy LinearConstraint(A, lb, ub). -/
structure SciLinearConstraint where
  A : ℕ → ℕ → ℚ
  lb : List Bnd
  ub : List Bnd

/-- A scipy NonlinearConstraint built from a ConstraintWrapper; the
wrapped constraint is recorded together with the bounds and whether an
analytic jacobian callback was attached. -/
structure SciNonlinearConstraint where
  wrapped : Constraint
  lb : List Bnd
  ub : List Bnd
  hasJacobian : Bool

/-- One element of the list returned by constraints_as_scipy_constraints. -/
inductive ScipyConstraint where
  | linear (c : SciLinearConstraint)
  | nonlinear (c : SciNonlinearConstraint)

/-- Translation of a single domain constraint inside the loop of
constraints_as_scipy_constraints.  The parameter nrm stands for
np.linalg.norm, the nonnegative square root of the sum of squared
coefficients (not representable inside ℚ, hence passed in).  Returns
none for an NChooseK constraint that is ignored; building a wrapper for a
nonlinear constraint without a features attribute raises. -/
def scipyOfConstraint (nrm : List ℚ → ℚ) (dom : Domain) (n : ℕ)
    (ignoreNchoosek : Bool) (c : Constraint) :
    Except String (Option ScipyConstraint) :=
  match c with
  | .linEq cd =>
    .ok (some (.linear
      { A := buildBlockMatrix n dom.inputs.length
          (constraintRow dom cd (nrm cd.coefficients))
        lb := List.replicate n (.val (cd.rhs / nrm cd.coefficients))
        ub := List.replicate n (.val (cd.rhs / nrm cd.coefficients)) }))
  | .linIneq cd =>
    .ok (some (.linear
      { A := buildBlockMatrix n dom.inputs.length
          (constraintRow dom cd (nrm cd.coefficients))
        lb := List.replicate n .neginf
        ub := List.replicate n (.val (cd.rhs / nrm cd.coefficients)) }))
  | .nonlinEq cd =>
    match cd.features with
    | none => .error "The features attribute of the constraint is not set, but has to be set."
    | some _ =>
      .ok (some (.nonlinear
        ⟨c, List.replicate n (.val 0), List.replicate n (.val 0),
          cd.jacobianExpression.isSome⟩))
  | .nonlinIneq cd =>
    match cd.features with
    | none => .error "The features attribute of the constraint is not set, but has to be set."
    | some _ =>
      .ok (some (.nonlinear
        ⟨c, List.replicate n .neginf, List.replicate n (.val 0),
          cd.jacobianExpression.isSome⟩))
  | .nchoosek _ =>
    if ignoreNchoosek then .ok none
    else
      .ok (some (.nonlinear
        ⟨c, List.replicate n .neginf, List.replicate n (.val 0), true⟩))

/-- The collection loop of constraints_as_scipy_constraints over a
constraint list. -/
def collectScipy (nrm : List ℚ → ℚ) (dom : Domain) (n : ℕ)
    (ignoreNchoosek : Bool) : List Constraint → Except String (List ScipyConstraint)
  | [] => .ok []
  | c :: t =>
    match scipyOfConstraint nrm dom n ignoreNchoosek c with
    | .error e => .error e
    | .ok none => collectScipy nrm dom n ignoreNchoosek t
    | .ok (some s) =>
      match collectScipy nrm dom n ignoreNchoosek t with
      | .error e => .error e
      | .ok l => .ok (s :: l)

/-- constraints_as_scipy_constraints: translate every domain constraint
(the early return for an empty constraint list yields the same empty
list). -/
def constraintsAsScipyConstraints (nrm : List ℚ → ℚ) (dom : Domain) (n : ℕ)
    (ignoreNchoosek : Bool) : Except String (List ScipyConstraint) :=
  collectScipy nrm dom n ignoreNchoosek dom.constraints

/-- A concrete three-input domain with one NChooseK constraint over the
first two inputs (max_count 1), used to instantiate theorems at a
concrete input. -/
def domC4W : Domain :=
  ⟨[⟨"x1".toList, -1, 1⟩, ⟨"x2".toList, -1, 1⟩, ⟨"x3".toList, 2, 3⟩],
   [.nchoosek ⟨["x1".toList, "x2".toList], 0, 1, false⟩]⟩

/-- A concrete shuffle outcome: the identity permutation of the
combination lists of domC4W. -/
def shufC4W : NChooseKData → List (List ℕ) := fun cd => combosOf domC4W cd

/-- Concrete norm function for the coefficient vector [3, 4] (whose L2
norm is exactly 5), used to instantiate theorems at a concrete input. -/
def nrmW : List ℚ → ℚ := fun l => if l = [3, 4] then 5 else 0

/-- A concrete linear constraint 3*x1 + 4*x2 = 5. -/
def cdW : LinearConstraintData := ⟨["x1".toList, "x2".toList], [3, 4], 5⟩

/-- A concrete two-input domain carrying the constraint cdW. -/
def domW : Domain :=
  ⟨[⟨"x1".toList, 0, 1⟩, ⟨"x2".toList, 0, 1⟩], [.linEq cdW]⟩

end Bofire

namespace Bofire

/-- Running a fallible loop succeeds exactly when the body succeeds on
every element. -/
theorem exceptForM_ok_iff {α : Type _} (xs : List α)
    (f : α → Except String Unit) :
    exceptForM xs f = .ok () ↔ ∀ x ∈ xs, f x = .ok () := by
  induction xs with
  | nil => simp [exceptForM]
  | cons x t ih =>
    constructor
    · intro h
      have hx : f x = .ok () := by
        by_contra hc
        cases hfx : f x with
        | error e => rw [exceptForM, hfx] at h; exact absurd h (by simp)
        | ok u => cases u; exact hc hfx
      intro y hy
      rcases List.mem_cons.1 hy with rfl | hyt
      · exact hx
      · rw [exceptForM, hx] at h
        exact ih.1 h y hyt
    · intro h
      rw [exceptForM, h x (List.mem_cons_self x t)]
      exact ih.2 (fun y hy => h y (List.mem_cons_of_mem x hy))

/-- The length of a deduplicated list equals the original length exactly
when the list has no duplicates. -/
theorem dedup_length_eq_iff {α : Type _} [DecidableEq α] (l : List α) :
    l.dedup.length = l.length ↔ l.Nodup := by
  constructor
  · intro h
    have hd : l.dedup = l := (List.dedup_sublist l).eq_of_length h
    rw [← hd]
    exact l.nodup_dedup
  · intro h
    rw [List.dedup_eq_self.2 h]

/-- The zero-in-bounds loop succeeds exactly when every referenced (and
resolvable) feature has 0 within its closed bounds. -/
theorem checkZeroLoop_ok_iff (dom : Domain) (ncs : List NChooseKData)
    (hpresent : ∀ cd ∈ ncs, ∀ name ∈ cd.features, (dom.getByKey name).isSome) :
    checkZeroLoop dom ncs = .ok () ↔
      ∀ cd ∈ ncs, ∀ name ∈ cd.features, ∀ p,
        dom.getByKey name = some p → p.lb ≤ 0 ∧ 0 ≤ p.ub := by
  rw [checkZeroLoop, exceptForM_ok_iff]
  constructor
  · intro h cd hcd name hname p hp
    have hin := (exceptForM_ok_iff _ _).1 (h cd hcd) name (List.mem_dedup.2 hname)
    simp only [checkFeatureZeroInBounds, hp] at hin
    by_contra hcon
    have hcond : p.lb > 0 ∨ p.ub < 0 := by
      rcases not_and_or.1 hcon with h1 | h1
      · exact Or.inl (not_le.1 h1)
      · exact Or.inr (not_le.1 h1)
    rw [if_pos hcond] at hin
    exact absurd hin (by simp)
  · intro h cd hcd
    rw [exceptForM_ok_iff]
    intro name hname
    have hname' := List.mem_dedup.1 hname
    cases hgp : dom.getByKey name with
    | none => exact absurd (hpresent cd hcd name hname') (by simp [hgp])
    | some p =>
      have hb := h cd hcd name hname' p hgp
      simp only [checkFeatureZeroInBounds, hgp]
      rw [if_neg]
      simp only [not_or, not_lt]
      exact ⟨hb.1, hb.2⟩

/-- The pairwise-disjointness loop succeeds exactly when no two non-equal
NChooseK constraints share a feature name. -/
theorem checkPairwiseDisjoint_ok_iff (ncs : List NChooseKData) :
    checkPairwiseDisjoint ncs = .ok () ↔
      ∀ cd ∈ ncs, ∀ cd' ∈ ncs, cd ≠ cd' →
        ∀ name ∈ cd.features, name ∉ cd'.features := by
  rw [checkPairwiseDisjoint, exceptForM_ok_iff]
  constructor
  · intro h cd hcd cd' hcd' hne name hname hmem
    have h2 := (exceptForM_ok_iff _ _).1 (h cd hcd) cd' hcd'
    rw [if_neg hne] at h2
    have h3 := (exceptForM_ok_iff _ _).1 h2 name hname
    rw [if_pos hmem] at h3
    exact absurd h3 (by simp)
  · intro h cd hcd
    rw [exceptForM_ok_iff]
    intro cd' hcd'
    by_cases hne : cd = cd'
    · rw [if_pos hne]
    · rw [if_neg hne, exceptForM_ok_iff]
      intro name hname
      rw [if_neg (h cd hcd cd' hcd' hne name hname)]

/-- Closed form of the block matrix built by the slice-assignment loop:
row r carries the coefficient row in columns r*D..(r+1)*D and zeros
elsewhere; rows at or beyond n are all zero. -/
theorem buildBlockMatrix_apply (n D : ℕ) (row : ℕ → ℚ) (r col : ℕ) :
    buildBlockMatrix n D row r col =
      if r < n ∧ r * D ≤ col ∧ col < (r + 1) * D then row (col - r * D) else 0 := by
  induction n with
  | zero => simp [buildBlockMatrix]
  | succ m ih =>
    have hstep : buildBlockMatrix (m + 1) D row
        = setBlock D row (buildBlockMatrix m D row) m := by
      simp [buildBlockMatrix, List.range_succ]
    rw [hstep, setBlock]
    by_cases h1 : r = m ∧ m * D ≤ col ∧ col < (m + 1) * D
    · rw [if_pos h1]
      obtain ⟨rfl, h2, h3⟩ := h1
      rw [if_pos ⟨Nat.lt_succ_self _, h2, h3⟩]
    · rw [if_neg h1, ih]
      by_cases h2 : r < m ∧ r * D ≤ col ∧ col < (r + 1) * D
      · rw [if_pos h2, if_pos ⟨Nat.lt_succ_of_lt h2.1, h2.2⟩]
      · rw [if_neg h2, if_neg]
        rintro ⟨ha, hb, hc2⟩
        rcases Nat.lt_succ_iff_lt_or_eq.1 ha with ha' | ha'
        · exact h2 ⟨ha', hb, hc2⟩
        · exact h1 ⟨ha', ha' ▸ hb, ha' ▸ hc2⟩

/-- Zipping with a mapped value list pushes the map into the pairs. -/
theorem zip_map_snd (f : ℚ → ℚ) : ∀ (ks : List Str) (vs : List ℚ),
    ks.zip (vs.map f) = (ks.zip vs).map (fun pr => (pr.1, f pr.2)) := by
  intro ks
  induction ks with
  | nil => intro vs; rfl
  | cons k kt ih =>
    intro vs
    cases vs with
    | nil => rfl
    | cons v vt => simp [ih]

/-- Finding by key commutes with dividing all values of a pair list. -/
theorem find?_map_snd (d : ℚ) (name : Str) :
    ∀ l : List (Str × ℚ),
      ((l.map (fun pr => (pr.1, pr.2 / d))).find? (fun pr => pr.1 = name)).map (·.2)
        = ((l.find? (fun pr => pr.1 = name)).map (·.2)).map (· / d) := by
  intro l
  induction l with
  | nil => rfl
  | cons x t ih =>
    by_cases hx : x.1 = name
    · simp [List.find?, hx]
    · simp only [List.map_cons, List.find?, hx, decide_eq_true_eq]
      simp only [decide_False, ih]

/-- The dict of normalized coefficients looks up to the raw coefficient
divided by the norm. -/
theorem lhsLookup_map_div (features : List Str) (vals : List ℚ) (d : ℚ)
    (name : Str) :
    lhsLookup features (vals.map (· / d)) name
      = (lhsLookup features vals name).map (· / d) := by
  unfold lhsLookup
  rw [zip_map_snd, ← List.map_reverse, find?_map_snd]

/-- A successful run of the collection loop contains the translation of
every constraint in the input list that translates to a scipy
constraint. -/
theorem collectScipy_mem (nrm : List ℚ → ℚ) (dom : Domain) (n : ℕ) (ig : Bool)
    (cs : List Constraint) (c : Constraint) (s : ScipyConstraint)
    (l : List ScipyConstraint) (hc : c ∈ cs)
    (hs : scipyOfConstraint nrm dom n ig c = .ok (some s))
    (hl : collectScipy nrm dom n ig cs = .ok l) : s ∈ l := by
  induction cs generalizing l with
  | nil => cases hc
  | cons x t ih =>
    rw [collectScipy] at hl
    rcases List.mem_cons.1 hc with rfl | hct
    · rw [hs] at hl
      cases hrec : collectScipy nrm dom n ig t with
      | error e => rw [hrec] at hl; exact absurd hl (by simp)
      | ok l' =>
        rw [hrec] at hl
        cases hl
        exact List.mem_cons_self s l'
    · cases hx : scipyOfConstraint nrm dom n ig x with
      | error e => rw [hx] at hl; exact absurd hl (by simp)
      | ok o =>
        cases o with
        | none => rw [hx] at hl; exact ih _ hct hl
        | some s' =>
          rw [hx] at hl
          cases hrec : collectScipy nrm dom n ig t with
          | error e => rw [hrec] at hl; exact absurd hl (by simp)
          | ok l' =>
            rw [hrec] at hl
            cases hl
            exact List.mem_cons_of_mem s' (ih _ hct hrec)

/-- C1: for every domain and experiment count, a linear equality or
inequality constraint is translated into a scipy linear constraint whose
matrix replicates the single per-experiment coefficient row
block-diagonally (row r occupies columns r*D..(r+1)*D, zero elsewhere),
each coefficient divided by the L2 norm of the coefficient vector (the
nrm parameter, characterized as the nonnegative square root of the sum of
squares); for an equality both bound vectors are rhs/norm repeated
n_experiments times, for an inequality the upper bounds are rhs/norm
repeated with lower bounds -inf; the resulting constraint is an element
of the list produced by constraints_as_scipy_constraints. -/
theorem linear_constraints_block_diagonal
    (nrm : List ℚ → ℚ) (dom : Domain) (n : ℕ) (ig : Bool)
    (cd : LinearConstraintData) (c : Constraint)
    (hc : c = .linEq cd ∨ c = .linIneq cd)
    (hnrm : 0 ≤ nrm cd.coefficients ∧
      nrm cd.coefficients ^ 2 = (cd.coefficients.map (fun q => q * q)).sum) :
    ∃ sc : SciLinearConstraint,
      scipyOfConstraint nrm dom n ig c = .ok (some (.linear sc)) ∧
      (∀ r j, r < n → j < dom.inputs.length →
        sc.A r (r * dom.inputs.length + j) =
          (match dom.keys.get? j with
           | some name =>
             match lhsLookup cd.features cd.coefficients name with
             | some v => v / nrm cd.coefficients
             | none => 0
           | none => 0)) ∧
      (∀ r col,
        ¬ (r < n ∧ r * dom.inputs.length ≤ col ∧
            col < (r + 1) * dom.inputs.length) →
        sc.A r col = 0) ∧
      (c = .linEq cd →
        sc.lb = List.replicate n (Bnd.val (cd.rhs / nrm cd.coefficients)) ∧
        sc.ub = List.replicate n (Bnd.val (cd.rhs / nrm cd.coefficients))) ∧
      (c = .linIneq cd →
        sc.lb = List.replicate n Bnd.neginf ∧
        sc.ub = List.replicate n (Bnd.val (cd.rhs / nrm cd.coefficients))) ∧
      (∀ l, constraintsAsScipyConstraints nrm dom n ig = .ok l →
        c ∈ dom.constraints → ScipyConstraint.linear sc ∈ l) := by
  have hentry : ∀ r j, r < n → j < dom.inputs.length →
      buildBlockMatrix n dom.inputs.length
        (constraintRow dom cd (nrm cd.coefficients)) r
        (r * dom.inputs.length + j) =
      (match dom.keys.get? j with
       | some name =>
         match lhsLookup cd.features cd.coefficients name with
         | some v => v / nrm cd.coefficients
         | none => 0
       | none => 0) := by
    intro r j hr hj
    have hle : r * dom.inputs.length ≤ r * dom.inputs.length + j :=
      Nat.le_add_right _ _
    have hlt : r * dom.inputs.length + j < (r + 1) * dom.inputs.length := by
      have hexp : (r + 1) * dom.inputs.length
          = r * dom.inputs.length + dom.inputs.length := by ring
      rw [hexp]
      exact Nat.add_lt_add_left hj _
    rw [buildBlockMatrix_apply, if_pos ⟨hr, hle, hlt⟩, Nat.add_sub_cancel_left]
    simp only [constraintRow]
    cases hk : dom.keys.get? j with
    | none => rfl
    | some name =>
      show (match lhsLookup cd.features
          (cd.coefficients.map (· / nrm cd.coefficients)) name with
        | some v => v
        | none => 0)
        = (match lhsLookup cd.features cd.coefficients name with
        | some v => v / nrm cd.coefficients
        | none => 0)
      rw [lhsLookup_map_div]
      cases lhsLookup cd.features cd.coefficients name with
      | none => rfl
      | some v => rfl
  have hzero : ∀ r col,
      ¬ (r < n ∧ r * dom.inputs.length ≤ col ∧
          col < (r + 1) * dom.inputs.length) →
      buildBlockMatrix n dom.inputs.length
        (constraintRow dom cd (nrm cd.coefficients)) r col = 0 := by
    intro r col hcond
    rw [buildBlockMatrix_apply, if_neg hcond]
  rcases hc with rfl | rfl
  · refine ⟨_, rfl, hentry, hzero, fun _ => ⟨rfl, rfl⟩, ?_, ?_⟩
    · intro h
      exact absurd h (by simp)
    · intro l hl hmem
      exact collectScipy_mem nrm dom n ig dom.constraints _ _ l hmem rfl hl
  · refine ⟨_, rfl, hentry, hzero, ?_, fun _ => ⟨rfl, rfl⟩, ?_⟩
    · intro h
      exact absurd h (by simp)
    · intro l hl hmem
      exact collectScipy_mem nrm dom n ig dom.constraints _ _ l hmem rfl hl

/-- C1 witness: the theorem instantiated at a concrete domain with two
inputs, the equality constraint 3*x1 + 4*x2 = 5 (L2 norm 5) and two
experiments. -/
theorem linear_constraints_block_diagonal_witness :
    ∃ sc : SciLinearConstraint,
      scipyOfConstraint nrmW domW 2 true (.linEq cdW) = .ok (some (.linear sc)) ∧
      (∀ r j, r < 2 → j < domW.inputs.length →
        sc.A r (r * domW.inputs.length + j) =
          (match domW.keys.get? j with
           | some name =>
             match lhsLookup cdW.features cdW.coefficients name with
             | some v => v / nrmW cdW.coefficients
             | none => 0
           | none => 0)) ∧
      (∀ r col,
        ¬ (r < 2 ∧ r * domW.inputs.length ≤ col ∧
            col < (r + 1) * domW.inputs.length) →
        sc.A r col = 0) ∧
      (Constraint.linEq cdW = .linEq cdW →
        sc.lb = List.replicate 2 (Bnd.val (cdW.rhs / nrmW cdW.coefficients)) ∧
        sc.ub = List.replicate 2 (Bnd.val (cdW.rhs / nrmW cdW.coefficients))) ∧
      (Constraint.linEq cdW = .linIneq cdW →
        sc.lb = List.replicate 2 Bnd.neginf ∧
        sc.ub = List.replicate 2 (Bnd.val (cdW.rhs / nrmW cdW.coefficients))) ∧
      (∀ l, constraintsAsScipyConstraints nrmW domW 2 true = .ok l →
        Constraint.linEq cdW ∈ domW.constraints → ScipyConstraint.linear sc ∈ l) :=
  linear_constraints_block_diagonal nrmW domW 2 true cdW (.linEq cdW)
    (Or.inl rfl) ⟨by norm_num [nrmW, cdW], by norm_num [nrmW, cdW]⟩

/-- setAll preserves the list length. -/
theorem setAll_length {α : Type _} (v : α) :
    ∀ (ps : List ℕ) (l : List α), (setAll ps v l).length = l.length := by
  intro ps
  induction ps with
  | nil => intro l; rfl
  | cons q t ih =>
    intro l
    show (setAll t v (l.set q v)).length = l.length
    rw [ih, List.length_set]

/-- Element lookup after a fancy-index assignment: listed in-range
positions read the new value, all other positions are untouched. -/
theorem setAll_get? {α : Type _} (v : α) :
    ∀ (ps : List ℕ) (l : List α) (p : ℕ),
      (setAll ps v l).get? p =
        if p ∈ ps ∧ p < l.length then some v else l.get? p := by
  intro ps
  induction ps with
  | nil =>
    intro l p
    simp [setAll]
  | cons q t ih =>
    intro l p
    show (setAll t v (l.set q v)).get? p = _
    rw [ih, List.length_set]
    by_cases hlen : p < l.length
    · by_cases hpt : p ∈ t
      · rw [if_pos ⟨hpt, hlen⟩, if_pos ⟨List.mem_cons_of_mem q hpt, hlen⟩]
      · rw [if_neg (fun hc => hpt hc.1)]
        by_cases hpq : p = q
        · subst hpq
          rw [if_pos ⟨List.mem_cons_self p t, hlen⟩]
          simp [List.get?_eq_getElem?, List.getElem?_set_self hlen]
        · rw [if_neg (fun hc => by
            rcases List.mem_cons.1 hc.1 with h | h
            · exact hpq h
            · exact hpt h)]
          simp [List.get?_eq_getElem?, List.getElem?_set_ne (fun hqp => hpq hqp.symm)]
    · rw [if_neg (fun hc => hlen hc.2), if_neg (fun hc => hlen hc.2)]
      have h1 : l.length ≤ p := Nat.le_of_not_lt hlen
      simp [List.get?_eq_getElem?, List.getElem?_eq_none (by simpa using h1),
        List.getElem?_eq_none (l := l.set q v) (by simpa using h1)]

/-- Two consecutive fancy-index assignments with the same value merge into
one over the concatenated position lists. -/
theorem setAll_append {α : Type _} (v : α) (ps qs : List ℕ) (l : List α) :
    setAll (ps ++ qs) v l = setAll qs v (setAll ps v l) := by
  simp [setAll, List.foldl_append]

/-- A loop of fancy-index assignments with the same value merges into a
single assignment over the flattened position lists. -/
theorem foldl_setAll {α : Type _} (v : α) (g : ℕ → List ℕ) :
    ∀ (is : List ℕ) (l : List α),
      is.foldl (fun b i => setAll (g i) v b) l = setAll (is.flatMap g) v l := by
  intro is
  induction is with
  | nil => intro l; rfl
  | cons i t ih =>
    intro l
    show t.foldl _ (setAll (g i) v l) = _
    rw [ih, List.flatMap_cons, setAll_append]

/-- Indexing into the concatenation of n copies of a list at position
i * len + j reads position j of the list. -/
theorem flatten_replicate_get? {α : Type _} (l : List α) :
    ∀ (n i j : ℕ), i < n → j < l.length →
      ((List.replicate n l).flatten).get? (i * l.length + j) = l.get? j := by
  intro n
  induction n with
  | zero => intro i j hi; cases hi
  | succ m ih =>
    intro i j hi hj
    rw [List.replicate_succ, List.flatten_cons]
    cases i with
    | zero =>
      simp only [Nat.zero_mul, Nat.zero_add]
      rw [List.get?_eq_getElem?, List.get?_eq_getElem?, List.getElem?_append,
        if_pos hj]
    | succ k =>
      have harith : (k + 1) * l.length + j = l.length + (k * l.length + j) := by
        ring
      rw [harith, List.get?_eq_getElem?, List.getElem?_append_right (Nat.le_add_right _ _),
        Nat.add_sub_cancel_left, ← List.get?_eq_getElem?,
        ih k j (Nat.lt_of_succ_lt_succ hi) hj]

/-- Membership of the nchoosekList exactly reflects NChooseK membership of
the domain's constraint list. -/
theorem mem_nchoosekList (dom : Domain) (cd : NChooseKData) :
    cd ∈ nchoosekList dom ↔ Constraint.nchoosek cd ∈ dom.constraints := by
  rw [nchoosekList, List.mem_filterMap]
  constructor
  · rintro ⟨c, hc, hmap⟩
    cases c <;> simp_all
  · intro h
    exact ⟨Constraint.nchoosek cd, h, rfl⟩

/-- Decomposing membership of a zeroed-position list: position i*D + j
(with i < n and j < D, all combination members being below D) is zeroed
exactly when j belongs to the combination chosen for experiment i. -/
theorem mem_positionsOf (D n : ℕ) (ind : List (List ℕ))
    (hlt : ∀ l ∈ ind, ∀ j ∈ l, j < D) (i j : ℕ) (hi : i < n) (hj : j < D) :
    (i * D + j ∈ positionsOf D n ind) ↔
      j ∈ (ind.get? (i % ind.length)).getD [] := by
  constructor
  · intro hmem
    obtain ⟨i', hi', hmem'⟩ := List.mem_flatMap.1 hmem
    obtain ⟨j', hj', heq⟩ := List.mem_map.1 hmem'
    have hchosen : (ind.get? (i' % ind.length)).getD [] ∈ ind := by
      cases hind : ind.get? (i' % ind.length) with
      | none => rw [hind] at hj'; simp at hj'
      | some c =>
        simp only [Option.getD_some]
        exact List.get?_mem hind
    have hj'D : j' < D := hlt _ hchosen j' hj'
    have hD : 0 < D := Nat.lt_of_le_of_lt (Nat.zero_le j) hj
    have hjj : j' = j := by
      have h1 : (j' + i' * D) % D = j' := by
        rw [Nat.add_comm, Nat.mul_comm i' D, Nat.mul_add_mod, Nat.mod_eq_of_lt hj'D]
      have h2 : (i * D + j) % D = j := by
        rw [Nat.mul_comm i D, Nat.mul_add_mod, Nat.mod_eq_of_lt hj]
      rw [← h1, heq, h2]
    have hii : i' = i := by
      subst hjj
      have h3 : i' * D = i * D := by omega
      exact Nat.eq_of_mul_eq_mul_right hD h3
    subst hii
    subst hjj
    exact hj'
  · intro hmem
    refine List.mem_flatMap.2 ⟨i, List.mem_range.2 hi, List.mem_map.2 ⟨j, hmem, ?_⟩⟩
    exact Nat.add_comm j (i * D)

/-- For a nonempty combination list the experiment loop equals a single
fancy-index assignment over all chosen positions. -/
theorem applyNchoosekBounds_eq (D n : ℕ) (ind : List (List ℕ))
    (bnds : List (ℚ × ℚ)) (hne : ind ≠ []) :
    applyNchoosekBounds D n ind bnds
      = .ok (setAll (positionsOf D n ind) (0, 0) bnds) := by
  rw [applyNchoosekBounds, if_neg hne, positionsOf, foldl_setAll]

/-- A run of the constraint loop in which every NChooseK constraint has a
nonempty combination list equals a single fancy-index assignment over the
union of all zeroed positions. -/
theorem nchoosekBoundsFold_eq (dom : Domain) (n : ℕ)
    (shuf : NChooseKData → List (List ℕ)) :
    ∀ (cs : List Constraint) (bnds : List (ℚ × ℚ)),
      (∀ cd, Constraint.nchoosek cd ∈ cs → shuf cd ≠ []) →
      nchoosekBoundsFold dom n shuf cs bnds
        = .ok (setAll (allPositions dom n shuf cs) (0, 0) bnds) := by
  intro cs
  induction cs with
  | nil => intro bnds _; rfl
  | cons c t ih =>
    intro bnds hne
    cases c with
    | nchoosek cd =>
      rw [nchoosekBoundsFold,
        applyNchoosekBounds_eq _ _ _ _ (hne cd (List.mem_cons_self _ _))]
      show nchoosekBoundsFold dom n shuf t _ = _
      rw [ih _ (fun cd' h => hne cd' (List.mem_cons_of_mem _ h))]
      rw [allPositions, setAll_append]
    | linEq cd =>
      rw [nchoosekBoundsFold, ih _ (fun cd' h => hne cd' (List.mem_cons_of_mem _ h))]
      rfl
    | linIneq cd =>
      rw [nchoosekBoundsFold, ih _ (fun cd' h => hne cd' (List.mem_cons_of_mem _ h))]
      rfl
    | nonlinEq cd =>
      rw [nchoosekBoundsFold, ih _ (fun cd' h => hne cd' (List.mem_cons_of_mem _ h))]
      rfl
    | nonlinIneq cd =>
      rw [nchoosekBoundsFold, ih _ (fun cd' h => hne cd' (List.mem_cons_of_mem _ h))]
      rfl

/-- Membership of the union of zeroed positions over a constraint list. -/
theorem mem_allPositions (dom : Domain) (n : ℕ)
    (shuf : NChooseKData → List (List ℕ)) (p : ℕ) :
    ∀ cs : List Constraint,
      (p ∈ allPositions dom n shuf cs ↔
        ∃ cd, Constraint.nchoosek cd ∈ cs ∧
          p ∈ positionsOf dom.inputs.length n (shuf cd)) := by
  intro cs
  induction cs with
  | nil => simp [allPositions]
  | cons c t ih =>
    cases c with
    | nchoosek cd =>
      rw [allPositions, List.mem_append, ih]
      constructor
      · rintro (h | ⟨cd', hmem, hpos⟩)
        · exact ⟨cd, List.mem_cons_self _ _, h⟩
        · exact ⟨cd', List.mem_cons_of_mem _ hmem, hpos⟩
      · rintro ⟨cd', hmem, hpos⟩
        rcases List.mem_cons.1 hmem with heq | hmem'
        · cases heq
          exact Or.inl hpos
        · exact Or.inr ⟨cd', hmem', hpos⟩
    | linEq cd =>
      rw [allPositions, ih]
      constructor
      · rintro ⟨cd', hmem, hpos⟩
        exact ⟨cd', List.mem_cons_of_mem _ hmem, hpos⟩
      · rintro ⟨cd', hmem, hpos⟩
        rcases List.mem_cons.1 hmem with heq | hmem'
        · cases heq
        · exact ⟨cd', hmem', hpos⟩
    | linIneq cd =>
      rw [allPositions, ih]
      constructor
      · rintro ⟨cd', hmem, hpos⟩
        exact ⟨cd', List.mem_cons_of_mem _ hmem, hpos⟩
      · rintro ⟨cd', hmem, hpos⟩
        rcases List.mem_cons.1 hmem with heq | hmem'
        · cases heq
        · exact ⟨cd', hmem', hpos⟩
    | nonlinEq cd =>
      rw [allPositions, ih]
      constructor
      · rintro ⟨cd', hmem, hpos⟩
        exact ⟨cd', List.mem_cons_of_mem _ hmem, hpos⟩
      · rintro ⟨cd', hmem, hpos⟩
        rcases List.mem_cons.1 hmem with heq | hmem'
        · cases heq
        · exact ⟨cd', hmem', hpos⟩
    | nonlinIneq cd =>
      rw [allPositions, ih]
      constructor
      · rintro ⟨cd', hmem, hpos⟩
        exact ⟨cd', List.mem_cons_of_mem _ hmem, hpos⟩
      · rintro ⟨cd', hmem, hpos⟩
        rcases List.mem_cons.1 hmem with heq | hmem'
        · cases heq
        · exact ⟨cd', hmem', hpos⟩

/-- Filtering an enumeration by a predicate on the values keeps as many
elements as filtering the underlying list. -/
theorem enumFrom_filter_snd_length (p : Str → Bool) :
    ∀ (l : List Str) (k : ℕ),
      ((List.enumFrom k l).filter (fun pr => p pr.2)).length
        = (l.filter p).length := by
  intro l
  induction l with
  | nil => intro k; rfl
  | cons x t ih =>
    intro k
    rw [List.enumFrom]
    cases hpx : p x <;> simp [List.filter_cons, hpx, ih]

/-- Every index produced by an enumeration starting at k is below
k plus the list length. -/
theorem mem_enumFrom_fst_lt :
    ∀ (l : List Str) (k : ℕ) (pr : ℕ × Str),
      pr ∈ List.enumFrom k l → pr.1 < k + l.length := by
  intro l
  induction l with
  | nil => intro k pr h; simp [List.enumFrom] at h
  | cons x t ih =>
    intro k pr h
    rw [List.enumFrom] at h
    rcases List.mem_cons.1 h with rfl | h'
    · simp
    · have := ih (k + 1) pr h'
      simp only [List.length_cons]
      omega

/-- Every member of the constrained-index list is a valid input
position. -/
theorem mem_indOf_lt (dom : Domain) (cd : NChooseKData) (j : ℕ)
    (h : j ∈ indOf dom cd) : j < dom.inputs.length := by
  rw [indOf] at h
  obtain ⟨pr, hpr, hj⟩ := List.mem_map.1 h
  have h2 := (List.mem_filter.1 hpr).1
  have h3 := mem_enumFrom_fst_lt dom.keys 0 pr (by simpa [List.enum] using h2)
  have h4 : dom.keys.length = dom.inputs.length := List.length_map _ _
  omega

/-- With unique keys and distinct features all present among the keys,
the constrained-index list has exactly one entry per feature. -/
theorem indOf_length (dom : Domain) (cd : NChooseKData)
    (hkeys : dom.keys.Nodup) (hnd : cd.features.Nodup)
    (hsub : ∀ f ∈ cd.features, f ∈ dom.keys) :
    (indOf dom cd).length = cd.features.length := by
  rw [indOf, List.length_map]
  have h1 : ((dom.keys.enum).filter (fun pr => decide (pr.2 ∈ cd.features))).length
      = (dom.keys.filter (fun k => decide (k ∈ cd.features))).length := by
    show ((List.enumFrom 0 dom.keys).filter _).length = _
    exact enumFrom_filter_snd_length (fun k => decide (k ∈ cd.features)) dom.keys 0
  rw [h1]
  have hperm : (dom.keys.filter (fun k => decide (k ∈ cd.features))).Perm
      cd.features := by
    apply (List.perm_ext_iff_of_nodup (hkeys.filter _) hnd).2
    intro a
    simp only [List.mem_filter, decide_eq_true_eq]
    exact ⟨fun h => h.2, fun h => ⟨hsub a h, h⟩⟩
  exact hperm.length_eq

/-- For a nonempty shuffled combination list, the combination chosen for
experiment i is one of its entries. -/
theorem chosenCombo_mem (shuf : NChooseKData → List (List ℕ))
    (cd : NChooseKData) (i : ℕ) (h : shuf cd ≠ []) :
    chosenCombo shuf cd i ∈ shuf cd := by
  rw [chosenCombo]
  have hlen : 0 < (shuf cd).length := List.length_pos.2 h
  have hmod : i % (shuf cd).length < (shuf cd).length := Nat.mod_lt _ hlen
  cases hg : (shuf cd).get? (i % (shuf cd).length) with
  | none =>
    rw [List.get?_eq_getElem?] at hg
    have := List.getElem?_eq_none_iff.1 hg
    omega
  | some c =>
    simp only [Option.getD_some]
    exact List.get?_mem hg

/-- C4: for a domain passing the as-bounds check (with unique keys and
distinct, resolvable NChooseK features) and any shuffle outcome (any
permutation of the combination lists), nchoosek_constraints_as_bounds
assigns to each experiment i the combination at entry i % len(ind) of the
shuffled list of combinations of |features| - max_count constrained
indices, pinning exactly those features' bounds to [0, 0] for that
experiment while every other feature keeps its original bounds. -/
theorem nchoosek_bounds_round_robin (dom : Domain) (n : ℕ)
    (shuf : NChooseKData → List (List ℕ))
    (hkeys : dom.keys.Nodup)
    (hfeat : ∀ cd ∈ nchoosekList dom, cd.features.Nodup ∧
      ∀ f ∈ cd.features, f ∈ dom.keys)
    (hcheck : checkNchoosekConstraintsAsBounds dom = .ok ())
    (hshuf : ∀ cd ∈ nchoosekList dom, (shuf cd).Perm (combosOf dom cd)) :
    ∃ bnds, nchoosekConstraintsAsBounds dom n shuf = .ok bnds ∧
      bnds.length = n * dom.inputs.length ∧
      (∀ cd ∈ nchoosekList dom, ∀ combo ∈ shuf cd,
        combo.length = cd.features.length - cd.maxCount) ∧
      ∀ i < n, ∀ (j : ℕ) (p : ContInput), dom.inputs.get? j = some p →
        ((∃ cd ∈ nchoosekList dom, j ∈ chosenCombo shuf cd i) →
          bnds.get? (i * dom.inputs.length + j) = some ((0 : ℚ), (0 : ℚ))) ∧
        (¬ (∃ cd ∈ nchoosekList dom, j ∈ chosenCombo shuf cd i) →
          bnds.get? (i * dom.inputs.length + j) = some (p.lb, p.ub)) := by
  have hne : ∀ cd, Constraint.nchoosek cd ∈ dom.constraints → shuf cd ≠ [] := by
    intro cd hmem hnil
    have hcd : cd ∈ nchoosekList dom := (mem_nchoosekList dom cd).2 hmem
    have hlen := (hshuf cd hcd).length_eq
    rw [hnil] at hlen
    have hcombos : 0 < (combosOf dom cd).length := by
      rw [combosOf, List.length_sublistsLen]
      apply Nat.choose_pos
      rw [indOf_length dom cd hkeys (hfeat cd hcd).1 (hfeat cd hcd).2]
      exact Nat.sub_le _ _
    rw [← hlen] at hcombos
    exact absurd hcombos (by simp)
  have hltAll : ∀ cd ∈ nchoosekList dom, ∀ l ∈ shuf cd, ∀ j ∈ l,
      j < dom.inputs.length := by
    intro cd hcd l hl j hj
    have hl' : l ∈ combosOf dom cd := ((hshuf cd hcd).mem_iff).1 hl
    have hsubl := (List.mem_sublistsLen.1 hl').1
    exact mem_indOf_lt dom cd j (hsubl.subset hj)
  have hfold := nchoosekBoundsFold_eq dom n shuf dom.constraints
    ((List.replicate n (dom.inputs.map (fun p => (p.lb, p.ub)))).flatten) hne
  refine ⟨setAll (allPositions dom n shuf dom.constraints) (0, 0)
    ((List.replicate n (dom.inputs.map (fun p => (p.lb, p.ub)))).flatten),
    ?_, ?_, ?_, ?_⟩
  · simp only [nchoosekConstraintsAsBounds, hcheck]
    exact hfold
  · rw [setAll_length]
    simp [List.length_flatten, List.map_replicate, List.sum_replicate, smul_eq_mul]
  · intro cd hcd combo hcombo
    have h' : combo ∈ combosOf dom cd := ((hshuf cd hcd).mem_iff).1 hcombo
    exact (List.mem_sublistsLen.1 h').2
  · intro i hi j p hp
    have hjD : j < dom.inputs.length := by
      by_contra hcon
      rw [List.get?_eq_getElem?, List.getElem?_eq_none (Nat.le_of_not_lt hcon)] at hp
      cases hp
    have hidx : i * dom.inputs.length + j
        < ((List.replicate n (dom.inputs.map (fun p => (p.lb, p.ub)))).flatten).length := by
      have hlen2 : ((List.replicate n
          (dom.inputs.map (fun p => (p.lb, p.ub)))).flatten).length
          = n * dom.inputs.length := by
        simp [List.length_flatten, List.map_replicate, List.sum_replicate, smul_eq_mul]
      rw [hlen2]
      calc i * dom.inputs.length + j
          < i * dom.inputs.length + dom.inputs.length := Nat.add_lt_add_left hjD _
        _ = (i + 1) * dom.inputs.length := (Nat.succ_mul i _).symm
        _ ≤ n * dom.inputs.length :=
            Nat.mul_le_mul_right _ (Nat.succ_le_of_lt hi)
    have hchar : (i * dom.inputs.length + j
        ∈ allPositions dom n shuf dom.constraints)
        ↔ ∃ cd ∈ nchoosekList dom, j ∈ chosenCombo shuf cd i := by
      rw [mem_allPositions]
      constructor
      · rintro ⟨cd, hmem, hpos⟩
        have hcd := (mem_nchoosekList dom cd).2 hmem
        rw [mem_positionsOf dom.inputs.length n (shuf cd)
          (hltAll cd hcd) i j hi hjD] at hpos
        exact ⟨cd, hcd, hpos⟩
      · rintro ⟨cd, hcd, hch⟩
        refine ⟨cd, (mem_nchoosekList dom cd).1 hcd, ?_⟩
        rw [mem_positionsOf dom.inputs.length n (shuf cd)
          (hltAll cd hcd) i j hi hjD]
        exact hch
    constructor
    · intro hex
      rw [setAll_get?, if_pos ⟨hchar.2 hex, hidx⟩]
    · intro hnex
      rw [setAll_get?, if_neg (fun hc => hnex (hchar.1 hc.1))]
      have hbl : (dom.inputs.map (fun p => (p.lb, p.ub))).length
          = dom.inputs.length := List.length_map _ _
      have hjb : j < (dom.inputs.map (fun p => (p.lb, p.ub))).length := by
        rw [hbl]; exact hjD
      have hflat := flatten_replicate_get?
        (dom.inputs.map (fun p => (p.lb, p.ub))) n i j hi hjb
      rw [hbl] at hflat
      rw [hflat, List.get?_map, hp]
      rfl

/-- C4 witness: the theorem instantiated at the concrete domain domC4W
with three experiments and the identity shuffle. -/
theorem nchoosek_bounds_round_robin_witness :
    ∃ bnds, nchoosekConstraintsAsBounds domC4W 3 shufC4W = .ok bnds ∧
      bnds.length = 3 * domC4W.inputs.length ∧
      (∀ cd ∈ nchoosekList domC4W, ∀ combo ∈ shufC4W cd,
        combo.length = cd.features.length - cd.maxCount) ∧
      ∀ i < 3, ∀ (j : ℕ) (p : ContInput), domC4W.inputs.get? j = some p →
        ((∃ cd ∈ nchoosekList domC4W, j ∈ chosenCombo shufC4W cd i) →
          bnds.get? (i * domC4W.inputs.length + j) = some ((0 : ℚ), (0 : ℚ))) ∧
        (¬ (∃ cd ∈ nchoosekList domC4W, j ∈ chosenCombo shufC4W cd i) →
          bnds.get? (i * domC4W.inputs.length + j) = some (p.lb, p.ub)) :=
  nchoosek_bounds_round_robin domC4W 3 shufC4W (by decide) (by decide)
    (by rfl) (fun cd _ => List.Perm.refl _)

/-- Splitting a separator-free string yields the string itself. -/
theorem splitOnSep_no_sep : ∀ (c : Str), '_' ∉ c → splitOnSep c = [c] := by
  intro c
  induction c with
  | nil => intro _; rfl
  | cons ch t ih =>
    intro h
    have hch : ¬ ch = '_' := fun hc => h (hc ▸ List.mem_cons_self ch t)
    have ht : '_' ∉ t := fun hc => h (List.mem_cons_of_mem ch hc)
    rw [splitOnSep]
    simp only [if_neg hch, ih ht]

/-- Splitting a string of the form key ++ sep ++ rest with a
separator-free key peels the key off as part 0. -/
theorem splitOnSep_append : ∀ (key : Str) (c : Str), '_' ∉ key →
    splitOnSep (key ++ '_' :: c) = key :: splitOnSep c := by
  intro key
  induction key with
  | nil =>
    intro c _
    rw [List.nil_append, splitOnSep]
    simp
  | cons ch t ih =>
    intro c h
    have hch : ¬ ch = '_' := fun hc => h (hc ▸ List.mem_cons_self ch t)
    have ht : '_' ∉ t := fun hc => h (List.mem_cons_of_mem ch hc)
    rw [List.cons_append, splitOnSep]
    simp only [if_neg hch, ih c ht]

/-- Folding the idxmax step over columns holding 0 keeps a nonnegative
current best. -/
theorem foldBest_zeros : ∀ (t : List (Str × ℚ)) (best : Str × ℚ),
    0 ≤ best.2 → (∀ pr ∈ t, pr.2 = 0) →
    t.foldl bestStep best = best := by
  intro t
  induction t with
  | nil => intro best _ _; rfl
  | cons x r ih =>
    intro best hb ht
    rw [List.foldl_cons, bestStep, if_neg]
    · exact ih best hb (fun pr hpr => ht pr (List.mem_cons_of_mem x hpr))
    · rw [ht x (List.mem_cons_self x r)]
      exact not_lt.2 hb

/-- idxmax of a row with exactly one 1.0 among 0.0 values is the column
of the 1.0. -/
theorem idxmaxRow_single_one (l₁ l₂ : List (Str × ℚ)) (nm : Str)
    (h1 : ∀ pr ∈ l₁, pr.2 = 0) (h2 : ∀ pr ∈ l₂, pr.2 = 0) :
    idxmaxRow (l₁ ++ (nm, (1 : ℚ)) :: l₂) = nm := by
  cases l₁ with
  | nil =>
    rw [List.nil_append, idxmaxRow,
      foldBest_zeros l₂ (nm, (1 : ℚ)) (by norm_num) h2]
  | cons x r =>
    rw [List.cons_append, idxmaxRow, List.foldl_append]
    have hx : x.2 = 0 := h1 x (List.mem_cons_self x r)
    have hr : r.foldl bestStep x = x :=
      foldBest_zeros r x (le_of_eq hx.symm)
        (fun pr hpr => h1 pr (List.mem_cons_of_mem x hpr))
    rw [hr, List.foldl_cons, bestStep, if_pos (by rw [hx]; norm_num),
      foldBest_zeros l₂ (nm, (1 : ℚ)) (by norm_num) h2]

/-- Looking up a one-hot column by its full name in a column list built
from distinct categories returns exactly that category's column. -/
theorem find?_onehot_name (key : Str) (s : List Str) :
    ∀ (cats : List Str), cats.Nodup → ∀ c ∈ cats,
      ((cats.map (fun c' =>
        (key ++ '_' :: c', s.map (fun v => if v = c' then (1 : ℚ) else 0)))).find?
          (fun pr => pr.1 = key ++ '_' :: c))
        = some (key ++ '_' :: c, s.map (fun v => if v = c then (1 : ℚ) else 0)) := by
  intro cats
  induction cats with
  | nil => intro _ c hc; cases hc
  | cons c₀ t ih =>
    intro hnd c hc
    rcases List.mem_cons.1 hc with rfl | hct
    · rw [List.map_cons, List.find?_cons_of_pos]
      simp
    · rw [List.map_cons, List.find?_cons_of_neg]
      · exact ih (List.nodup_cons.1 hnd).2 c hct
      · simp only [decide_eq_true_eq]
        intro hcon
        have := List.append_cancel_left hcon
        have hc₀ : c₀ = c := by
          injection this
        exact (List.nodup_cons.1 hnd).1 (hc₀ ▸ hct)

/-- Dereferencing is unaffected by a store update at a different
address. -/
theorem heapGet_set_ne (h : Heap) (a i : ℕ) (v : ContInput) (hne : i ≠ a) :
    heapGet (h.set a v) i = heapGet h i := by
  unfold heapGet
  rw [List.getD_eq_getElem?_getD, List.getD_eq_getElem?_getD,
    List.getElem?_set_ne (fun hc => hne hc.symm)]

/-- Dereferencing an address of the original store is unaffected by
appended allocations. -/
theorem heapGet_append (h : Heap) (x : List ContInput) (i : ℕ)
    (hi : i < h.length) :
    heapGet (h ++ x) i = heapGet h i := by
  unfold heapGet
  rw [List.getD_eq_getElem?_getD, List.getD_eq_getElem?_getD,
    List.getElem?_append, if_pos hi]

/-- Pinning features of a domain whose addresses all lie at or beyond N
neither shrinks the store below N nor changes any address below N. -/
theorem foldFix_preserves (N : ℕ) (dcopy : RefDomain)
    (hdc : ∀ a ∈ dcopy.inputAddrs, N ≤ a) :
    ∀ (u : List Str) (hh : Heap), N ≤ hh.length →
      N ≤ (u.foldl (fun hh key => fixFeatureHeap hh dcopy key) hh).length ∧
      ∀ i < N, heapGet (u.foldl (fun hh key => fixFeatureHeap hh dcopy key) hh) i
        = heapGet hh i := by
  intro u
  induction u with
  | nil => intro hh hlen; exact ⟨hlen, fun i _ => rfl⟩
  | cons k t ih =>
    intro hh hlen
    have hfix : (fixFeatureHeap hh dcopy k).length = hh.length ∧
        ∀ i < N, heapGet (fixFeatureHeap hh dcopy k) i = heapGet hh i := by
      rw [fixFeatureHeap]
      cases hfind : getByKeyAddr hh dcopy k with
      | none => exact ⟨rfl, fun i _ => rfl⟩
      | some a =>
        have hamem : a ∈ dcopy.inputAddrs := List.mem_of_find?_eq_some hfind
        have ha : N ≤ a := hdc a hamem
        exact ⟨List.length_set hh a _,
          fun i hi => heapGet_set_ne hh a i _ (by omega)⟩
    obtain ⟨hfl, hfg⟩ := hfix
    have hrec := ih (fixFeatureHeap hh dcopy k) (by rw [hfl]; exact hlen)
    exact ⟨hrec.1, fun i hi => (hrec.2 i hi).trans (hfg i hi)⟩

/-- One combination iteration of _ask: the store grows (fresh copies) and
every address below the original store length keeps its value. -/
theorem processCombination_preserves (N : ℕ) (h' : Heap) (d : RefDomain)
    (u : List Str) (hlen : N ≤ h'.length) :
    N ≤ (processCombination h' d u).length ∧
    ∀ i < N, heapGet (processCombination h' d u) i = heapGet h' i := by
  have hpc : processCombination h' d u
      = u.foldl (fun hh key => fixFeatureHeap hh
          { inputAddrs := (List.range d.inputAddrs.length).map (· + h'.length),
            constraints := d.constraints.filter (fun c =>
              match c with
              | .nchoosek _ => false
              | _ => true) } key)
          (h' ++ d.inputAddrs.map (heapGet h')) := rfl
  rw [hpc]
  have hdc : ∀ a ∈ (List.range d.inputAddrs.length).map (· + h'.length), N ≤ a := by
    intro a ha
    obtain ⟨t, _, rfl⟩ := List.mem_map.1 ha
    omega
  have hbig : N ≤ (h' ++ d.inputAddrs.map (heapGet h')).length := by
    rw [List.length_append]
    omega
  have hff := foldFix_preserves N
    { inputAddrs := (List.range d.inputAddrs.length).map (· + h'.length),
      constraints := d.constraints.filter (fun c =>
        match c with
        | .nchoosek _ => false
        | _ => true) } hdc u (h' ++ d.inputAddrs.map (heapGet h')) hbig
  refine ⟨hff.1, fun i hi => (hff.2 i hi).trans ?_⟩
  exact heapGet_append h' _ i (lt_of_lt_of_le hi hlen)

/-- C8: exploring NChooseK combinations in PolytopeSampler._ask never
mutates the sampler's own domain: after the loop over sampled
combinations the domain reference is unchanged (its constraint list, and
in particular its NChooseK constraints, intact) and every feature object
it references still holds its original value on the heap; only the deep
copies (allocated at fresh addresses) are modified. -/
theorem ask_nchoosek_preserves_domain (h : Heap) (d : RefDomain)
    (combinations : List (List Str))
    (hvalid : ∀ a ∈ d.inputAddrs, a < h.length) :
    (polytopeAskNChooseK h d combinations).2 = d ∧
    ∀ a ∈ d.inputAddrs,
      heapGet (polytopeAskNChooseK h d combinations).1 a = heapGet h a := by
  have main : ∀ (combs : List (List Str)) (h' : Heap), h.length ≤ h'.length →
      h.length ≤ (combs.foldl (fun hh u => processCombination hh d u) h').length ∧
      ∀ i < h.length,
        heapGet (combs.foldl (fun hh u => processCombination hh d u) h') i
          = heapGet h' i := by
    intro combs
    induction combs with
    | nil => intro h' hlen; exact ⟨hlen, fun i _ => rfl⟩
    | cons u t ih =>
      intro h' hlen
      have hstep := processCombination_preserves h.length h' d u hlen
      have hrec := ih (processCombination h' d u) hstep.1
      exact ⟨hrec.1, fun i hi => (hrec.2 i hi).trans (hstep.2 i hi)⟩
  refine ⟨rfl, fun a ha => ?_⟩
  exact (main combinations h (le_refl _)).2 a (hvalid a ha)

/-- C8 witness: a concrete heap with two features, a domain referencing
both with an NChooseK constraint, and two sampled combinations. -/
theorem ask_nchoosek_preserves_domain_witness :
    (polytopeAskNChooseK [⟨"x1".toList, 0, 1⟩, ⟨"x2".toList, 0, 1⟩]
        ⟨[0, 1], [.nchoosek ⟨["x1".toList, "x2".toList], 0, 1, false⟩]⟩
        [["x1".toList], ["x2".toList]]).2
      = ⟨[0, 1], [.nchoosek ⟨["x1".toList, "x2".toList], 0, 1, false⟩]⟩ ∧
    ∀ a ∈ (⟨[0, 1], [.nchoosek ⟨["x1".toList, "x2".toList], 0, 1, false⟩]⟩ :
        RefDomain).inputAddrs,
      heapGet (polytopeAskNChooseK [⟨"x1".toList, 0, 1⟩, ⟨"x2".toList, 0, 1⟩]
          ⟨[0, 1], [.nchoosek ⟨["x1".toList, "x2".toList], 0, 1, false⟩]⟩
          [["x1".toList], ["x2".toList]]).1 a
        = heapGet [⟨"x1".toList, 0, 1⟩, ⟨"x2".toList, 0, 1⟩] a :=
  ask_nchoosek_preserves_domain
    [⟨"x1".toList, 0, 1⟩, ⟨"x2".toList, 0, 1⟩]
    ⟨[0, 1], [.nchoosek ⟨["x1".toList, "x2".toList], 0, 1, false⟩]⟩
    [["x1".toList], ["x2".toList]] (by decide)

/-- C10 (amended): one-hot encoding round-trips whenever neither the
feature key nor any category contains the separator character: for every
non-empty series whose entries are categories of the feature,
from_onehot_encoding(to_onehot_encoding(s)) returns the series s named by
the feature key.  (The counterexample shows the separator restriction is
necessary; the non-empty scope is the original claim's, and at the empty
series the source raises a KeyError instead.) -/
theorem onehot_roundtrip (feat : CatInput) (s : List Str)
    (hnd : feat.categories.Nodup)
    (hkey : '_' ∉ feat.key)
    (hcat : ∀ c ∈ feat.categories, '_' ∉ c)
    (hs : ∀ v ∈ s, v ∈ feat.categories)
    (hne : s ≠ []) :
    fromOnehotEncoding feat (toOnehotEncoding feat s) = .ok (feat.key, s) := by
  obtain ⟨key, cats⟩ := feat
  simp only at hnd hkey hcat hs
  have hguard : ((cats.map (fun c => key ++ '_' :: c)).any
      (fun c => ((toOnehotEncoding ⟨key, cats⟩ s).find?
        (fun pr => pr.1 = c)).isNone)) = false := by
    rw [List.any_eq_false]
    intro c hc
    obtain ⟨cat, hcatmem, rfl⟩ := List.mem_map.1 hc
    rw [toOnehotEncoding]
    rw [find?_onehot_name key s cats hnd cat hcatmem]
    simp
  have hrow : ∀ (r : ℕ) (sr : Str), s.get? r = some sr →
      ((splitOnSep (idxmaxRow (((cats.map (fun c => key ++ '_' :: c)).map
        (fun c => (c, (((toOnehotEncoding ⟨key, cats⟩ s).find?
          (fun pr => pr.1 = c)).map (·.2)).getD []))).map
        (fun pr => (pr.1, (pr.2.get? r).getD 0))))).get? 1).getD [] = sr := by
    intro r sr hsr
    have hsrcat : sr ∈ cats := hs sr (List.get?_mem hsr)
    have hcolsrow : ((cats.map (fun c => key ++ '_' :: c)).map
        (fun c => (c, (((toOnehotEncoding ⟨key, cats⟩ s).find?
          (fun pr => pr.1 = c)).map (·.2)).getD []))).map
        (fun pr => (pr.1, (pr.2.get? r).getD 0))
        = cats.map (fun c =>
          (key ++ '_' :: c, if sr = c then (1 : ℚ) else 0)) := by
      rw [List.map_map, List.map_map]
      apply List.map_congr_left
      intro c hcmem
      have hfind : (toOnehotEncoding ⟨key, cats⟩ s).find?
          (fun pr => pr.1 = key ++ '_' :: c)
          = some (key ++ '_' :: c,
              s.map (fun v => if v = c then (1 : ℚ) else 0)) := by
        rw [toOnehotEncoding]
        exact find?_onehot_name key s cats hnd c hcmem
      have hsr' : s[r]? = some sr := by
        rw [← List.get?_eq_getElem?]
        exact hsr
      simp [Function.comp, hfind, List.get?_eq_getElem?, hsr']
    rw [hcolsrow]
    obtain ⟨l₁, l₂, hsplit⟩ := List.append_of_mem hsrcat
    rw [hsplit] at hnd
    have hnd' := List.nodup_append.1 hnd
    have hsrl₁ : sr ∉ l₁ := fun hmem =>
      hnd'.2.2 hmem (List.mem_cons_self sr l₂)
    have hsrl₂ : sr ∉ l₂ := (List.nodup_cons.1 hnd'.2.1).1
    rw [hsplit, List.map_append, List.map_cons, if_pos rfl]
    rw [idxmaxRow_single_one]
    · rw [splitOnSep_append key sr hkey,
        splitOnSep_no_sep sr (hcat sr hsrcat)]
      rfl
    · rintro pr hpr
      obtain ⟨c, hcl, rfl⟩ := List.mem_map.1 hpr
      show (if sr = c then (1 : ℚ) else 0) = 0
      rw [if_neg (show ¬ sr = c from fun hc => hsrl₁ (hc.symm ▸ hcl))]
    · rintro pr hpr
      obtain ⟨c, hcl, rfl⟩ := List.mem_map.1 hpr
      show (if sr = c then (1 : ℚ) else 0) = 0
      rw [if_neg (show ¬ sr = c from fun hc => hsrl₂ (hc.symm ▸ hcl))]
  cases cats with
  | nil =>
    have hsnil : s = [] := by
      cases s with
      | nil => rfl
      | cons v t => exact absurd (hs v (List.mem_cons_self v t)) (by simp)
    exact absurd hsnil hne
  | cons c₀ ct =>
    rw [fromOnehotEncoding]
    dsimp only
    rw [if_neg (by rw [hguard]; simp)]
    have hnRows : ((((toOnehotEncoding ⟨key, c₀ :: ct⟩ s).head?).map
        (fun pr => pr.2.length)).getD 0) = s.length := by
      rw [toOnehotEncoding, List.map_cons, List.head?_cons]
      simp
    rw [hnRows]
    rw [if_neg (fun h0 => hne (List.length_eq_zero.1 h0))]
    refine congrArg _ (congrArg _ ?_)
    apply List.ext_getElem?
    intro i
    by_cases hi : i < s.length
    · obtain ⟨sr, hsr⟩ : ∃ sr, s.get? i = some sr := by
        cases hg : s.get? i with
        | none =>
          rw [List.get?_eq_getElem?] at hg
          have := List.getElem?_eq_none_iff.1 hg
          omega
        | some x => exact ⟨x, rfl⟩
      rw [List.getElem?_map, List.getElem?_range hi]
      have hval := hrow i sr hsr
      rw [List.get?_eq_getElem?] at hsr
      rw [hsr]
      simp only [Option.map_some']
      rw [hval]
    · have h1 : s.length ≤ i := Nat.le_of_not_lt hi
      rw [List.getElem?_map,
        List.getElem?_eq_none (by simpa using h1),
        List.getElem?_eq_none h1]
      rfl

/-- Decoding a zero-row frame raises: the idxmax series is empty, its
expanded split has no columns, and the [1] selection is a KeyError, as
in the source; so the round trip does not extend to the empty series. -/
theorem fromOnehot_empty_series_raises :
    fromOnehotEncoding ⟨['k'], [['a'], ['b']]⟩
        (toOnehotEncoding ⟨['k'], [['a'], ['b']]⟩ []) = .error "KeyError: 1" :=
  rfl

/-- C10 counterexample: for the feature with key k and category a_b
(containing the separator), encoding the series [a_b] and decoding it
returns the series [a], not [a_b]: the claimed round-trip fails because
from_onehot_encoding splits the column name k_a_b on the separator and
keeps part 1. -/
theorem onehot_roundtrip_separator_counterexample :
    fromOnehotEncoding ⟨['k'], [['a', '_', 'b'], ['c']]⟩
        (toOnehotEncoding ⟨['k'], [['a', '_', 'b'], ['c']]⟩ [['a', '_', 'b']])
      = .ok (['k'], [['a']])
    ∧ (['a'] : Str) ≠ ['a', '_', 'b'] := by
  constructor
  · rfl
  · decide

/-- C10 witness: the round-trip theorem instantiated at the feature with
key k, separator-free categories a and c, and the series [c, a, c]. -/
theorem onehot_roundtrip_witness :
    fromOnehotEncoding ⟨"k".toList, ["a".toList, "c".toList]⟩
        (toOnehotEncoding ⟨"k".toList, ["a".toList, "c".toList]⟩
          ["c".toList, "a".toList, "c".toList])
      = .ok ("k".toList, ["c".toList, "a".toList, "c".toList]) :=
  onehot_roundtrip ⟨"k".toList, ["a".toList, "c".toList]⟩
    ["c".toList, "a".toList, "c".toList]
    (by decide) (by decide) (by decide) (by decide) (by decide)

/-- C2 (code bug): because the code builds the ridge term with
np.eye(len(X)) - the number of EXPERIMENTS - instead of the dimension of
X.T @ X (the number of terms), g_optimality diverges from the claimed
formula for every non-square model matrix: for the 1 x 2 matrix [[1, 0]]
with delta = 1 numpy broadcasting adds delta to every entry of X.T X and
the code returns 1 while the claimed formula gives 1/2; for a 3 x 2
matrix the addition raises a broadcast error instead of returning a
value. -/
theorem g_optimality_eye_dimension_bug :
    g_optimality [[1, 0]] 1 = .ok 1
    ∧ g_optimality_spec [[1, 0]] 1 = .ok (1 / 2)
    ∧ g_optimality [[1, 0], [0, 1], [1, 1]] 1
        = .error "operands could not be broadcast together" := by
  refine ⟨?_, ?_, ?_⟩ <;>
    norm_num [g_optimality, g_optimality_spec, matmulM, transposeM, matCols,
      matRows, rowGet, entry, dotL, smulM, eyeM, broadcastAddM, addM, invM,
      elimStep, swapRows, diagM, maxL, List.range_succ, List.find?]

/-- C7 counterexample: a domain whose only continuous input is fixed (and
with a constraint present) makes the sampler warn for n = 2 even though
n is not 1 and the externally generated candidates are pairwise distinct,
refuting the claim that the degenerate-sample warning only occurs for
n == 1. -/
theorem polytope_warn_allfixed_counterexample :
    (sampleFromPolytope ⟨[⟨"x1".toList, 1, 1⟩],
        [.linIneq ⟨["x1".toList], [1], 2⟩]⟩ 2 [[0], [1]]).warnings ≠ []
    ∧ (2 : ℕ) ≠ 1
    ∧ ([[(0 : ℚ)], [1]] : List (List ℚ)).Nodup := by
  refine ⟨?_, by decide, by decide⟩
  have h : sampleFromPolytope ⟨[⟨"x1".toList, 1, 1⟩],
      [.linIneq ⟨["x1".toList], [1], 2⟩]⟩ 2 [[0], [1]]
      = ⟨["Nothing to sample, all is fixed. Just the fixed set is returned."], 2⟩ :=
    rfl
  rw [h]
  simp

/-- C7 (amended): the sampler always returns a table with n rows, and it
warns exactly when constraints are present and either every continuous
input is fixed or pseudo-fixed (for any n, not just n == 1), or n > 1 and
the generated hit-and-run candidates are not pairwise distinct. -/
theorem polytope_sampler_warnings (dom : Domain) (n : ℕ)
    (candidates : List (List ℚ)) (hcand : candidates.length = n) :
    (sampleFromPolytope dom n candidates).rows = n ∧
    ((sampleFromPolytope dom n candidates).warnings ≠ [] ↔
      (dom.constraints ≠ [] ∧
        ((∀ p ∈ dom.inputs, p.key ∈ fixedFeatureKeys dom) ∨
          (1 < n ∧ ¬ candidates.Nodup)))) := by
  have hdup : candidates.dedup.length ≠ n ↔ ¬ candidates.Nodup := by
    rw [← hcand]
    constructor
    · intro h hn
      exact h ((dedup_length_eq_iff candidates).2 hn)
    · intro h hn
      exact h ((dedup_length_eq_iff candidates).1 hn)
  by_cases hc : dom.constraints = []
  · have heq : sampleFromPolytope dom n candidates = ⟨[], n⟩ := by
      rw [sampleFromPolytope, if_pos hc]
    rw [heq]
    simp [hc]
  · by_cases hlow : ((dom.inputs.filter (fun p =>
        decide (p.key ∉ fixedFeatureKeys dom))).map (fun p => p.lb)) = []
    · have hall : ∀ p ∈ dom.inputs, p.key ∈ fixedFeatureKeys dom := by
        intro p hp
        rw [List.map_eq_nil_iff, List.filter_eq_nil_iff] at hlow
        have := hlow p hp
        simp only [decide_eq_true_eq] at this
        exact not_not.1 this
      have heq : sampleFromPolytope dom n candidates
          = ⟨["Nothing to sample, all is fixed. Just the fixed set is returned."],
             n⟩ := by
        rw [sampleFromPolytope, if_neg hc, if_pos hlow]
      rw [heq]
      refine ⟨rfl, ?_⟩
      simp only [ne_eq, List.cons_ne_nil, not_false_eq_true, true_iff]
      exact ⟨hc, Or.inl hall⟩
    · have hallneg : ¬ ∀ p ∈ dom.inputs, p.key ∈ fixedFeatureKeys dom := by
        intro hall
        apply hlow
        rw [List.map_eq_nil_iff, List.filter_eq_nil_iff]
        intro p hp
        simp [hall p hp]
      by_cases hdn : candidates.dedup.length ≠ n ∧ 1 < n
      · have heq : sampleFromPolytope dom n candidates
            = ⟨["Generated candidates are not unique!"], n⟩ := by
          rw [sampleFromPolytope, if_neg hc, if_neg hlow, if_pos hdn]
        rw [heq]
        refine ⟨rfl, ?_⟩
        simp only [ne_eq, List.cons_ne_nil, not_false_eq_true, true_iff]
        exact ⟨hc, Or.inr ⟨hdn.2, hdup.1 hdn.1⟩⟩
      · have heq : sampleFromPolytope dom n candidates = ⟨[], n⟩ := by
          rw [sampleFromPolytope, if_neg hc, if_neg hlow, if_neg hdn]
        rw [heq]
        refine ⟨rfl, ?_⟩
        simp only [ne_eq, not_true_eq_false, false_iff]
        rintro ⟨-, hor⟩
        rcases hor with hall | ⟨hn, hnd⟩
        · exact hallneg hall
        · exact hdn ⟨hdup.2 hnd, hn⟩

/-- C7 witness: the amended warning characterization instantiated at a
domain with one free input, a constraint, two requested samples and
duplicated candidates. -/
theorem polytope_sampler_warnings_witness :
    (sampleFromPolytope ⟨[⟨"x1".toList, 0, 1⟩],
        [.linIneq ⟨["x1".toList], [1], 2⟩]⟩ 2 [[0], [0]]).rows = 2 ∧
    ((sampleFromPolytope ⟨[⟨"x1".toList, 0, 1⟩],
        [.linIneq ⟨["x1".toList], [1], 2⟩]⟩ 2 [[0], [0]]).warnings ≠ [] ↔
      ((⟨[⟨"x1".toList, 0, 1⟩], [.linIneq ⟨["x1".toList], [1], 2⟩]⟩ :
          Domain).constraints ≠ [] ∧
        ((∀ p ∈ (⟨[⟨"x1".toList, 0, 1⟩],
            [.linIneq ⟨["x1".toList], [1], 2⟩]⟩ : Domain).inputs,
          p.key ∈ fixedFeatureKeys ⟨[⟨"x1".toList, 0, 1⟩],
            [.linIneq ⟨["x1".toList], [1], 2⟩]⟩) ∨
          (1 < 2 ∧ ¬ ([[(0 : ℚ)], [0]] : List (List ℚ)).Nodup)))) :=
  polytope_sampler_warnings
    ⟨[⟨"x1".toList, 0, 1⟩], [.linIneq ⟨["x1".toList], [1], 2⟩]⟩ 2
    [[0], [0]] rfl


/-- C9: ConstraintWrapper.__call__ returns the row-wise constraint
evaluation unmodified: the clipping branch guarded by abs(violation) < 0
is unreachable, so the output equals the raw per-row evaluation of the
reshaped input. -/
theorem constraint_wrapper_identity (D : ℕ) (f : List ℚ → ℚ) (x : List ℚ) :
    wrapperCall D f x = (reshapeRows D x).map f := by
  unfold wrapperCall
  simp only [List.map_map]
  apply List.map_congr_left
  intro a _
  simp [not_lt.2 (abs_nonneg (f a))]

/-- C5 counterexample: constructing a DiscreteInput from the duplicated
value list [1, 1] raises a ValueError instead of succeeding with the
de-duplicated sorted values, refuting the claim that construction succeeds
for every input list. -/
theorem discrete_values_duplicates_counterexample :
    mkDiscreteInput ['k'] [(1 : ℚ), 1] = .error "Discrete values must be unique" := by
  rfl

/-- C5 (amended): DiscreteInput construction succeeds exactly on nonempty
lists of pairwise-distinct values, and then stores the values sorted (a
sorted permutation of the input); duplicated values are rejected with a
ValueError rather than de-duplicated. -/
theorem discrete_values_validation (key : Str) (values : List ℚ) :
    (values ≠ [] ∧ values.Nodup →
      ∃ d, mkDiscreteInput key values = .ok d ∧ d.key = key ∧
        d.values.Perm values ∧ d.values.Sorted (· ≤ ·)) ∧
    ((values = [] ∨ ¬ values.Nodup) →
      ∃ e, mkDiscreteInput key values = .error e) := by
  constructor
  · rintro ⟨hne, hnd⟩
    have hlen : ¬ values.length < 1 := by
      simpa [Nat.lt_one_iff, List.length_eq_zero] using hne
    have hdedup : ¬ values.length ≠ values.dedup.length := by
      simp [((dedup_length_eq_iff values).2 hnd).symm]
    refine ⟨⟨key, values.mergeSort (fun a b => decide (a ≤ b))⟩, ?_, rfl, ?_, ?_⟩
    · simp only [mkDiscreteInput, validateValuesUnique, if_neg hlen, if_neg hdedup]
    · exact List.mergeSort_perm values _
    · exact List.sorted_mergeSort' values
  · intro h
    rcases h with h | h
    · exact ⟨"ensure this value has at least 1 items", by simp [mkDiscreteInput, h]⟩
    · have hdedup : values.length ≠ values.dedup.length := by
        intro hc
        exact h ((dedup_length_eq_iff values).1 hc.symm)
      by_cases hlen : values.length < 1
      · exact ⟨"ensure this value has at least 1 items",
          by simp [mkDiscreteInput, hlen]⟩
      · exact ⟨"Discrete values must be unique",
          by simp [mkDiscreteInput, validateValuesUnique, hlen, hdedup]⟩

/-- C5 witness: at the concrete input [2, 1] the construction succeeds and
stores a sorted permutation of the values. -/
theorem discrete_values_validation_witness :
    ∃ d, mkDiscreteInput ['k'] [(2 : ℚ), 1] = .ok d ∧ d.key = ['k'] ∧
      d.values.Perm [(2 : ℚ), 1] ∧ d.values.Sorted (· ≤ ·) :=
  (discrete_values_validation ['k'] [(2 : ℚ), 1]).1 ⟨by decide, by decide⟩

/-- C6: for a model_type string that is none of the four recognized
keywords and that the formulaic parser rejects, get_formula_from_string
raises instead of returning a formula. -/
theorem formula_unknown_keyword_error (parse : Str → Option Formula)
    (modelType : Str) (dom : Option Domain)
    (hkw : modelType ∉ ["linear".toList, "linear-and-quadratic".toList,
      "linear-and-interactions".toList, "fully-quadratic".toList])
    (hparse : parse modelType = none) :
    ∃ e, getFormulaFromString parse modelType dom = .error e := by
  simp only [List.mem_cons, List.mem_singleton, not_or] at hkw
  obtain ⟨h1, h2, h3, h4, -⟩ := hkw
  have htake : (modelType ++ "   ".toList).take
      ((modelType ++ "   ".toList).length - 3) = modelType := by
    have hlen : (modelType ++ "   ".toList).length - 3 = modelType.length := by
      simp
    rw [hlen, List.take_left]
  refine ⟨"formulaic could not parse the formula string", ?_⟩
  simp only [getFormulaFromString, if_neg h1, if_neg h2, if_neg h3, if_neg h4]
  rw [htake, hparse]

/-- C6 witness: the concrete unknown keyword "unknown" with a parser that
rejects it produces an error. -/
theorem formula_unknown_keyword_error_witness :
    ∃ e, getFormulaFromString (fun _ => none) "unknown".toList none = .error e :=
  formula_unknown_keyword_error (fun _ => none) "unknown".toList none (by decide) rfl

/-- C3 counterexample: in a domain whose single NChooseK constraint
references a feature with bounds [0, 1] - so that 0 lies on the boundary
and is not strictly inside - the check returns without error, refuting the
claim that it fails whenever a referenced feature does not have 0 strictly
inside its bounds. -/
theorem nchoosek_check_boundary_zero_counterexample :
    checkNchoosekConstraintsAsBounds
        ⟨[⟨"x1".toList, 0, 1⟩], [.nchoosek ⟨["x1".toList], 0, 1, false⟩]⟩ = .ok ()
      ∧ ∀ p ∈ (⟨[⟨"x1".toList, 0, 1⟩],
          [.nchoosek ⟨["x1".toList], 0, 1, false⟩]⟩ : Domain).inputs,
          ¬ (p.lb < 0 ∧ 0 < p.ub) := by
  constructor
  · rfl
  · decide

/-- C3 (amended): provided every NChooseK feature resolves to an input,
check_nchoosek_constraints_as_bounds returns without error exactly when
every feature referenced by an NChooseK constraint has 0 within its closed
bounds (lb <= 0 <= ub, not necessarily strictly inside) and no two
non-equal NChooseK constraints share a feature; otherwise it raises a
ValueError. -/
theorem nchoosek_check_ok_iff (dom : Domain)
    (hpresent : ∀ cd ∈ nchoosekList dom, ∀ name ∈ cd.features,
      (dom.getByKey name).isSome) :
    checkNchoosekConstraintsAsBounds dom = .ok () ↔
      ((∀ cd ∈ nchoosekList dom, ∀ name ∈ cd.features, ∀ p,
          dom.getByKey name = some p → p.lb ≤ 0 ∧ 0 ≤ p.ub) ∧
        (∀ cd ∈ nchoosekList dom, ∀ cd' ∈ nchoosekList dom, cd ≠ cd' →
          ∀ name ∈ cd.features, name ∉ cd'.features)) := by
  by_cases hc : dom.constraints = []
  · have hn : nchoosekList dom = [] := by simp [nchoosekList, hc]
    simp [checkNchoosekConstraintsAsBounds, hc, hn]
  by_cases hn : nchoosekList dom = []
  · simp [checkNchoosekConstraintsAsBounds, hc, hn]
  rw [checkNchoosekConstraintsAsBounds, if_neg hc, if_neg hn]
  have hA := checkZeroLoop_ok_iff dom (nchoosekList dom) hpresent
  have hB := checkPairwiseDisjoint_ok_iff (nchoosekList dom)
  cases hL : checkZeroLoop dom (nchoosekList dom) with
  | error e =>
    have hnA : ¬ (∀ cd ∈ nchoosekList dom, ∀ name ∈ cd.features, ∀ p,
        dom.getByKey name = some p → p.lb ≤ 0 ∧ 0 ≤ p.ub) := by
      intro hcon
      rw [hA.2 hcon] at hL
      exact absurd hL (by simp)
    constructor
    · intro habs
      exact absurd habs (by simp)
    · intro habs
      exact absurd habs.1 hnA
  | ok u =>
    cases u
    have hcond1 := hA.1 hL
    exact ⟨fun h => ⟨hcond1, hB.1 h⟩, fun h => hB.2 h.2⟩

/-- C3 witness: a domain with one NChooseK constraint over a feature with
bounds [-1, 1] passes the check, matching the amended condition at a
concrete input. -/
theorem nchoosek_check_ok_iff_witness :
    checkNchoosekConstraintsAsBounds
        ⟨[⟨"x1".toList, -1, 1⟩], [.nchoosek ⟨["x1".toList], 0, 1, false⟩]⟩ = .ok () ↔
      ((∀ cd ∈ nchoosekList ⟨[⟨"x1".toList, -1, 1⟩],
            [.nchoosek ⟨["x1".toList], 0, 1, false⟩]⟩, ∀ name ∈ cd.features, ∀ p,
          Domain.getByKey ⟨[⟨"x1".toList, -1, 1⟩],
            [.nchoosek ⟨["x1".toList], 0, 1, false⟩]⟩ name = some p →
            p.lb ≤ 0 ∧ 0 ≤ p.ub) ∧
        (∀ cd ∈ nchoosekList ⟨[⟨"x1".toList, -1, 1⟩],
            [.nchoosek ⟨["x1".toList], 0, 1, false⟩]⟩,
          ∀ cd' ∈ nchoosekList ⟨[⟨"x1".toList, -1, 1⟩],
            [.nchoosek ⟨["x1".toList], 0, 1, false⟩]⟩, cd ≠ cd' →
          ∀ name ∈ cd.features, name ∉ cd'.features)) :=
  nchoosek_check_ok_iff
    ⟨[⟨"x1".toList, -1, 1⟩], [.nchoosek ⟨["x1".toList], 0, 1, false⟩]⟩
    (by decide)

end Bofire
